import Mathlib

/-!
Verification development for the watchman.js client-side router.

The embedding models, from src/src/watchman.js (the ES-module source):
  - pathToRegExp : the four chained String.prototype.replace calls that turn a
    route-pattern string into a regular-expression source string plus the list
    of extracted parameter names (rtn.keys);
  - a model of the JavaScript RegExp library (parser + backtracking matcher
    with capture groups, case-insensitive flag) used through new RegExp / exec;
  - createRule, watch (registration), watch.use, watch.run (dispatch loop with
    break, middleware layer chain), paramsParser, removeEventListener;
and, from the legacy bundle src/watchman.js (second embedded version, the one
whose watch.run spans lines 416-451), the dispatch loop without a break
statement (watchRunV2) and its createRule / pathToRegExp (createRuleV2,
pathToRegExpV2).

Handlers and middlewares are modelled as functions producing a trace of
events; browser plumbing (hashchange listeners, history patching, location)
is outside the model, represented only by the watching event that watch.run
emits when it first establishes observation.
-/

namespace Watchman

/-- Character class of the regex [\/\(] used by the first replace: a slash or
an opening parenthesis. -/
def isSlashParen (c : Char) : Bool := c = '/' || c = '('

/-- JavaScript word character, the regex class \w: ASCII letter, digit or
underscore. -/
def isWordChar (c : Char) : Bool := c.isAlphanum || c = '_'

/-- Characters excluded by the JavaScript regex dot: the four ECMAScript line
terminators. -/
def notNL (c : Char) : Bool :=
  c ≠ '\n' && c ≠ '\r' && c ≠ '\u2028' && c ≠ '\u2029'

/-! ## The four replace steps of pathToRegExp

Source (src/src/watchman.js, lines 288-305):

  path
    .replace of ([\/\(]+): globally with (?:
    .replace of \(\?:(\w+)((\(.*?\))*) globally with a callback that records
      the parameter name and substitutes an optional segment
    .replace of the first )) with )
    .replace of * globally with (.*)

Note: in the callback, the JavaScript string literal for the default segment
contains the escape sequence backslash-slash, which at the string level is
just a slash; so the default replacement text is (?:/?([^/]+)?). -/

/-- Worker for repSepColon. The first argument accumulates, in reverse, a
pending run of slash / open-parenthesis characters; when the run is followed
by a colon the whole run plus the colon is replaced by the three characters
( ? :, otherwise the run is emitted unchanged. This mirrors the global
left-to-right scan of replace with the pattern ([\/\(]+): where a failed
position advances by one character. -/
def repSepColonGo : List Char → List Char → List Char
  | acc, [] => acc.reverse
  | acc, c :: rest =>
    if isSlashParen c then repSepColonGo (c :: acc) rest
    else if c = ':' then
      if acc.isEmpty then c :: repSepColonGo [] rest
      else '(' :: '?' :: ':' :: repSepColonGo [] rest
    else acc.reverse ++ c :: repSepColonGo [] rest

/-- The first replace: every run of slashes / opening parentheses immediately
followed by a colon is rewritten to the opening of a non-capturing group. -/
def repSepColon (s : List Char) : List Char := repSepColonGo [] s

/-- Splits a list at the first occurrence of the given character; returns the
part before it and the part after it, or none if absent. Models the lazy
sub-pattern .*? up to a closing parenthesis. -/
def splitAtChar (target : Char) : List Char → Option (List Char × List Char)
  | [] => none
  | c :: rest =>
    if c = target then some ([], rest)
    else (splitAtChar target rest).map (fun p => (c :: p.1, p.2))

/-- Collects the text matched by the sub-pattern ((\(.*?\))*): zero or more
parenthesized units, each one an opening parenthesis, a lazy run of
non-line-terminator characters, and the first following closing parenthesis.
Returns the collected text and the remainder. Fuel bounds the recursion; the
wrapper supplies the input length, which suffices since every unit consumes
at least two characters. -/
def grabGroups : Nat → List Char → (List Char × List Char)
  | 0, s => ([], s)
  | _ + 1, [] => ([], [])
  | fuel + 1, c :: rest =>
    if c = '(' then
      match splitAtChar ')' rest with
      | some (body, after) =>
        if body.all notNL then
          let (more, rem) := grabGroups fuel after
          ('(' :: (body ++ ')' :: more), rem)
        else ([], c :: rest)
      | none => ([], c :: rest)
    else ([], c :: rest)

/-- Replacement text substituted for a parameter token with no explicit
constraint: an optional slash then an optional capturing group of one or more
non-slash characters. -/
def defaultSegment : List Char := "/?([^/]+)".data

/-- Worker for repParamKeys: scans for the pattern \(\?:(\w+)((\(.*?\))*),
that is, the three characters ( ? : followed by at least one word character
(the parameter name) and then any parenthesized constraint units. For each
match it records the name and substitutes a non-capturing group around either
the constraint text with all parentheses removed, or the default segment,
followed by a question mark. Positions that do not match are copied through
one character at a time. Fuel bounds the recursion; every step consumes at
least one character of input. -/
def repParamKeysGo : Nat → List Char → (List Char × List String)
  | 0, _ => ([], [])
  | _ + 1, [] => ([], [])
  | fuel + 1, c :: rest =>
    if c = '(' then
      match rest with
      | '?' :: ':' :: d :: tail =>
        if isWordChar d then
          let key := (d :: tail).takeWhile isWordChar
          let afterKey := (d :: tail).dropWhile isWordChar
          let (optText, after) := grabGroups afterKey.length afterKey
          let matchTxt :=
            if optText.isEmpty then defaultSegment
            else optText.filter (fun c => c ≠ '(' && c ≠ ')')
          let (restOut, restKeys) := repParamKeysGo fuel after
          ('(' :: '?' :: ':' :: (matchTxt ++ '?' :: ')' :: restOut),
           key.asString :: restKeys)
        else
          let (restOut, restKeys) := repParamKeysGo fuel rest
          ('(' :: restOut, restKeys)
      | _ =>
        let (restOut, restKeys) := repParamKeysGo fuel rest
        ('(' :: restOut, restKeys)
    else
      let (restOut, restKeys) := repParamKeysGo fuel rest
      (c :: restOut, restKeys)

/-- The second replace, which also extracts the ordered parameter-name list
(the keys array of the source). -/
def repParamKeys (s : List Char) : List Char × List String :=
  repParamKeysGo (s.length + 1) s

/-- The third replace: only the first occurrence of two consecutive closing
parentheses is collapsed to a single one (String.prototype.replace with a
plain string argument replaces the first occurrence only). -/
def repDoubleClose : List Char → List Char
  | [] => []
  | [c] => [c]
  | a :: b :: rest =>
    if a = ')' && b = ')' then ')' :: rest
    else a :: repDoubleClose (b :: rest)

/-- The fourth replace: every asterisk becomes a capturing group matching any
run of characters. -/
def repStar (s : List Char) : List Char :=
  s.flatMap (fun c => if c = '*' then "(.*)".data else [c])

/-- Utility isHashRouter of the source: does the path start with a hash sign. -/
def isHashRouter (s : List Char) : Bool :=
  match s with
  | [] => false
  | c :: _ => c = '#'

/-! ## Compiled rules -/

/-- Model of a JavaScript RegExp value: its source text and whether the i
flag is set. -/
structure JSRegExp where
  source : String
  ignoreCase : Bool
deriving DecidableEq, Repr

/-- Route-pattern argument accepted by pathToRegExp: a string, a pre-built
regular expression, or an array of strings. -/
inductive PathPattern where
  | str (s : String)
  | regex (r : JSRegExp)
  | arr (xs : List String)
deriving DecidableEq, Repr

/-- Result of pathToRegExp: the ordered parameter names (keys) and the
compiled regular expression. -/
structure CompiledRule where
  keys : List String
  regexp : JSRegExp
deriving DecidableEq, Repr

/-- Body shared by the string / array branches of pathToRegExp in
src/src/watchman.js: the four replaces, then the anchoring prefix (omitted
for hash routes) and the tolerant hash-fragment suffix, compiled with the i
flag. -/
def pathStrToRule (path : List Char) : CompiledRule :=
  let s1 := repSepColon path
  let (s2, keys) := repParamKeys s1
  let s3 := repDoubleClose s2
  let s4 := repStar s3
  let src := (if isHashRouter path then [] else ['^']) ++ s4 ++ "((#.+)?)$".data
  ⟨keys, ⟨src.asString, true⟩⟩

/-- pathToRegExp of src/src/watchman.js: a pre-built RegExp is returned
unchanged with empty keys; an array is joined into a single alternation group
before the string pipeline runs. -/
def pathToRegExp : PathPattern → CompiledRule
  | .regex r => ⟨[], r⟩
  | .arr xs => pathStrToRule ("(" ++ String.intercalate "|" xs ++ ")").data
  | .str s => pathStrToRule s.data

/-- pathToRegExp of the legacy bundle (second version in src/watchman.js,
lines 542-578): same replace pipeline and keys extraction, but the prefix is
always a caret, followed by a slash when the pattern is a hash route. -/
def pathStrToRuleV2 (path : List Char) : CompiledRule :=
  let s1 := repSepColon path
  let (s2, keys) := repParamKeys s1
  let s3 := repDoubleClose s2
  let s4 := repStar s3
  let src := '^' :: (if isHashRouter path then ['/'] else []) ++ s4 ++ "((#.+)?)$".data
  ⟨keys, ⟨src.asString, true⟩⟩

/-- Legacy pathToRegExp dispatching on the pattern shape. -/
def pathToRegExpV2 : PathPattern → CompiledRule
  | .regex r => ⟨[], r⟩
  | .arr xs => pathStrToRuleV2 ("(" ++ String.intercalate "|" xs ++ ")").data
  | .str s => pathStrToRuleV2 s.data

/-! ## Counting capturing groups in a regex source string -/

/-- Worker counting capturing groups in a regex source string: an unescaped
opening parenthesis not followed by a question mark and not inside a
character class. The boolean state records whether the scan is inside a
character class. -/
def countCapGo : Bool → List Char → Nat
  | _, [] => 0
  | _, ['\\'] => 0
  | inClass, '\\' :: _ :: rest2 => countCapGo inClass rest2
  | false, '(' :: '?' :: rest2 => countCapGo false rest2
  | false, '(' :: rest => 1 + countCapGo false rest
  | false, '[' :: rest => countCapGo true rest
  | true, ']' :: rest => countCapGo false rest
  | inClass, _ :: rest => countCapGo inClass rest

/-- Number of capturing groups of a regex source string. -/
def countCapGroups (s : String) : Nat := countCapGo false s.data

/-! ## A model of the JavaScript RegExp library

new RegExp and exec are external library calls of the source; they are
modelled by a parser from regex source text to an abstract syntax tree and a
backtracking matcher with capture groups, covering exactly the constructs the
compiled patterns use: literals, the dot, character classes, escapes for d
and w and punctuation, non-capturing and capturing groups, alternation,
greedy and lazy star / plus / question quantifiers, the end anchor, and the
case-insensitive flag. -/

/-- Abstract syntax of the regex fragment in use. In star, plus and opt the
boolean is true for a greedy quantifier and false for a lazy one. -/
inductive RE where
  | eps : RE
  | lit : Char → RE
  | anyc : RE
  | cls : Bool → List Char → RE
  | seq : RE → RE → RE
  | alt : RE → RE → RE
  | star : RE → Bool → RE
  | plus : RE → Bool → RE
  | opt : RE → Bool → RE
  | group : Nat → RE → RE
  | eol : RE
deriving DecidableEq, Repr

/-- The ten decimal digit characters, the expansion of the class shorthand d. -/
def digitChars : List Char := "0123456789".data

/-- The word characters, the expansion of the class shorthand w. -/
def wordChars : List Char :=
  "ABCDEFGHIJKLMNOPQRSTUVWXYZabcdefghijklmnopqrstuvwxyz".data ++
    digitChars ++ ['_']

/-- Meaning of an escaped character in atom position: class shorthands d and
w expand to character classes, punctuation escapes denote themselves, and
other alphanumeric escapes are out of the modelled fragment. -/
def escAtom : Char → Option RE
  | 'd' => some (.cls false digitChars)
  | 'w' => some (.cls false wordChars)
  | c => if c.isAlphanum then none else some (.lit c)

/-- Meaning of an escaped character inside a character class. -/
def escClass : Char → Option (List Char)
  | 'd' => some digitChars
  | 'w' => some wordChars
  | c => if c.isAlphanum then none else some [c]

/-- Attaches an optional postfix quantifier (star, plus or question mark,
each optionally followed by a lazyness marker) to a parsed atom. -/
def withQuant (a : RE) : List Char → (RE × List Char)
  | [] => (a, [])
  | c :: rest =>
    if c = '*' then
      match rest with
      | '?' :: r2 => (.star a false, r2)
      | _ => (.star a true, rest)
    else if c = '+' then
      match rest with
      | '?' :: r2 => (.plus a false, r2)
      | _ => (.plus a true, rest)
    else if c = '?' then
      match rest with
      | '?' :: r2 => (.opt a false, r2)
      | _ => (.opt a true, rest)
    else (a, c :: rest)

/-- Parses the items of a character class up to the closing bracket. Ranges
are outside the modelled fragment and refused. Fuel bounds the recursion;
every step consumes at least one character. -/
def parseClassItems : Nat → List Char → Option (List Char × List Char)
  | 0, _ => none
  | fuel + 1, s =>
    match s with
    | [] => none
    | ']' :: rest => some ([], rest)
    | '\\' :: c :: rest => do
      let items1 ← escClass c
      let (items, rem) ← parseClassItems fuel rest
      some (items1 ++ items, rem)
    | '-' :: _ => none
    | c :: rest => do
      let (items, rem) ← parseClassItems fuel rest
      some (c :: items, rem)

/-- Mode of the recursive-descent parser: an alternation, a sequence, or a
single quantified atom. -/
inductive PMode where
  | palt : PMode
  | pseq : PMode
  | patom : PMode
deriving DecidableEq, Repr

/-- Recursive-descent regex parser. Arguments: fuel, mode, remaining input,
index of the next capturing group. Returns the parsed tree, the remaining
input and the updated group index. -/
def parseGo : Nat → PMode → List Char → Nat → Option (RE × List Char × Nat)
  | 0, _, _, _ => none
  | fuel + 1, m, s, g =>
    match m with
    | .palt => do
      let (a, s1, g1) ← parseGo fuel .pseq s g
      match s1 with
      | '|' :: rest => do
        let (b, s2, g2) ← parseGo fuel .palt rest g1
        some (RE.alt a b, s2, g2)
      | _ => some (a, s1, g1)
    | .pseq =>
      match s with
      | [] => some (RE.eps, [], g)
      | c :: rest =>
        if c = ')' || c = '|' then some (RE.eps, c :: rest, g)
        else do
          let (a, s1, g1) ← parseGo fuel .patom (c :: rest) g
          let (b, s2, g2) ← parseGo fuel .pseq s1 g1
          some (RE.seq a b, s2, g2)
    | .patom =>
      match s with
      | [] => none
      | c :: rest =>
        if c = '(' then
          match rest with
          | '?' :: ':' :: rest1 => do
            let (a, s1, g1) ← parseGo fuel .palt rest1 g
            match s1 with
            | ')' :: rest2 =>
              let (a2, rest3) := withQuant a rest2
              some (a2, rest3, g1)
            | _ => none
          | '?' :: _ => none
          | _ => do
            let (a, s1, g1) ← parseGo fuel .palt rest (g + 1)
            match s1 with
            | ')' :: rest2 =>
              let (a2, rest3) := withQuant (RE.group g a) rest2
              some (a2, rest3, g1)
            | _ => none
        else if c = '[' then
          match rest with
          | '^' :: rest1 => do
            let (items, rest2) ← parseClassItems rest1.length rest1
            let (a2, rest3) := withQuant (RE.cls true items) rest2
            some (a2, rest3, g)
          | _ => do
            let (items, rest2) ← parseClassItems rest.length rest
            let (a2, rest3) := withQuant (RE.cls false items) rest2
            some (a2, rest3, g)
        else if c = '\\' then
          match rest with
          | c2 :: rest1 => do
            let a ← escAtom c2
            let (a2, rest2) := withQuant a rest1
            some (a2, rest2, g)
          | [] => none
        else if c = '.' then
          let (a2, rest2) := withQuant RE.anyc rest
          some (a2, rest2, g)
        else if c = '$' then some (RE.eol, rest, g)
        else if c = ')' || c = '|' || c = '*' || c = '+' || c = '?' ||
            c = '^' then none
        else
          let (a2, rest2) := withQuant (RE.lit c) rest
          some (a2, rest2, g)

/-- Parses a whole regex body (no anchor handling); returns the tree and the
number of capturing groups. -/
def parseFull (cs : List Char) : Option (RE × Nat) :=
  match parseGo (4 * cs.length + 16) .palt cs 1 with
  | some (re, [], g) => some (re, g - 1)
  | _ => none

/-- A parsed regular expression: whether it is anchored at the start by a
caret, its body, and its capturing-group count. -/
structure ParsedRE where
  anchored : Bool
  body : RE
  groups : Nat
deriving DecidableEq, Repr

/-- Parses a regex source string, treating a leading caret as the start
anchor. -/
def parseRegex (src : List Char) : Option ParsedRE :=
  match src with
  | '^' :: rest => (parseFull rest).map (fun p => ⟨true, p.1, p.2⟩)
  | _ => (parseFull src).map (fun p => ⟨false, p.1, p.2⟩)

/-- ASCII lower-casing on character codes, the canonicalisation the i flag
applies (the compiled patterns and paths are ASCII). -/
def lowerNat (c : Char) : Nat :=
  if 65 ≤ c.toNat && c.toNat ≤ 90 then c.toNat + 32 else c.toNat

/-- Character comparison under the optional case-insensitive flag. -/
def charMatches (ci : Bool) (pat inp : Char) : Bool :=
  if ci then lowerNat pat == lowerNat inp else pat == inp

/-- Membership test of a character class, honouring negation and the
case-insensitive flag. -/
def classMatches (ci neg : Bool) (items : List Char) (d : Char) : Bool :=
  let m := items.any (fun c => charMatches ci c d)
  if neg then !m else m

/-- Capture state: group index paired with captured text; the most recent
entry for an index wins. -/
abbrev Caps := List (Nat × List Char)

/-- Looks up the most recent capture of a group index. -/
def lookupCap : Caps → Nat → Option (List Char)
  | [], _ => none
  | (j, v) :: rest, i => if j = i then some v else lookupCap rest i

/-- Backtracking matcher in continuation-passing style, following the
ECMAScript disambiguation order: alternation tries the left branch first, a
greedy quantifier tries to consume first, a lazy one tries to skip first, and
a quantifier iteration must consume input. Fuel decreases at every recursive
step; the callers supply a sufficient amount. -/
def mexec (ci : Bool) :
    Nat → RE → List Char → Caps →
    (List Char → Caps → Option (List Char × Caps)) →
    Option (List Char × Caps)
  | 0, _, _, _, _ => none
  | fuel + 1, re, s, caps, k =>
    match re with
    | .eps => k s caps
    | .lit c =>
      match s with
      | [] => none
      | d :: t => if charMatches ci c d then k t caps else none
    | .anyc =>
      match s with
      | [] => none
      | d :: t => if notNL d then k t caps else none
    | .cls neg items =>
      match s with
      | [] => none
      | d :: t => if classMatches ci neg items d then k t caps else none
    | .eol =>
      match s with
      | [] => k s caps
      | _ => none
    | .seq a b => mexec ci fuel a s caps (fun t c => mexec ci fuel b t c k)
    | .alt a b =>
      match mexec ci fuel a s caps k with
      | some r => some r
      | none => mexec ci fuel b s caps k
    | .opt a true =>
      match mexec ci fuel a s caps k with
      | some r => some r
      | none => k s caps
    | .opt a false =>
      match k s caps with
      | some r => some r
      | none => mexec ci fuel a s caps k
    | .star a true =>
      match
        mexec ci fuel a s caps (fun t c =>
          if t.length < s.length then mexec ci fuel (RE.star a true) t c k
          else none)
      with
      | some r => some r
      | none => k s caps
    | .star a false =>
      match k s caps with
      | some r => some r
      | none =>
        mexec ci fuel a s caps (fun t c =>
          if t.length < s.length then mexec ci fuel (RE.star a false) t c k
          else none)
    | .plus a gr =>
      mexec ci fuel a s caps (fun t c =>
        if t.length < s.length then mexec ci fuel (RE.star a gr) t c k
        else k t c)
    | .group i a =>
      mexec ci fuel a s caps (fun t c =>
        k t ((i, s.take (s.length - t.length)) :: c))

/-- Structural size of a regex tree, used to compute matcher fuel. -/
def reSize : RE → Nat
  | .eps => 1
  | .lit _ => 1
  | .anyc => 1
  | .cls _ _ => 1
  | .eol => 1
  | .seq a b => reSize a + reSize b + 1
  | .alt a b => reSize a + reSize b + 1
  | .star a _ => reSize a + 1
  | .plus a _ => reSize a + 1
  | .opt a _ => reSize a + 1
  | .group _ a => reSize a + 1

/-- Fuel supplied to the matcher for a given body and input. -/
def matchFuel (body : RE) (input : List Char) : Nat :=
  (reSize body + 4) * (input.length + 4) + 16

/-- One anchored match attempt at the start of the given suffix; on success
returns the consumed text and the capture state. -/
def tryAt (ci : Bool) (fuel : Nat) (body : RE) (s : List Char) :
    Option (List Char × Caps) :=
  (mexec ci fuel body s [] (fun t c => some (t, c))).map
    (fun r => (s.take (s.length - r.1.length), r.2))

/-- Leftmost search: attempts to match at each successive start position, as
exec does for an unanchored pattern. -/
def searchFrom (ci : Bool) (fuel : Nat) (body : RE) : List Char →
    Option (List Char × Caps)
  | [] => tryAt ci fuel body []
  | c :: rest =>
    match tryAt ci fuel body (c :: rest) with
    | some r => some r
    | none => searchFrom ci fuel body rest

/-- Model of RegExp.prototype.exec: parses the source, attempts the match
(anchored at the start, or searching left to right), and on success returns
the JavaScript match array: element zero is the full matched text, followed
by one entry per capturing group in index order, undefined (none) for groups
that did not participate. A regex outside the modelled fragment yields none. -/
def jsExecArr (r : JSRegExp) (input : String) : Option (List (Option String)) :=
  match parseRegex r.source.data with
  | none => none
  | some p =>
    let fuel := matchFuel p.body input.data
    let att :=
      if p.anchored then tryAt r.ignoreCase fuel p.body input.data
      else searchFrom r.ignoreCase fuel p.body input.data
    match att with
    | none => none
    | some (full, caps) =>
      some (some full.asString ::
        (List.range p.groups).map (fun i => (lookupCap caps (i + 1)).map List.asString))

/-- Truthiness of an exec call, as used by the dispatch loop condition. -/
def jsTest (r : JSRegExp) (input : String) : Bool :=
  (jsExecArr r input).isSome

/-- The syntax tree the parser produces for the hash-fragment suffix
((#.+)?)$ of every compiled pattern, with its two capturing groups. -/
def hashSuffixRE : RE :=
  RE.seq
    (RE.group 1
      (RE.seq
        (RE.opt
          (RE.group 2
            (RE.seq (RE.lit '#') (RE.seq (RE.plus RE.anyc true) RE.eps)))
          true)
        RE.eps))
    (RE.seq RE.eol RE.eps)

/-- The syntax tree of an anchored literal pattern: the literal characters
in sequence, ending in the hash-fragment suffix. -/
def litTail (p : List Char) : RE :=
  p.foldr (fun c r => RE.seq (RE.lit c) r) hashSuffixRE

/-- Case-insensitive consumption of a literal prefix: returns the remainder
of the input after the pattern characters, when each matches. -/
def stripCI : List Char → List Char → Option (List Char)
  | [], s => some s
  | _ :: _, [] => none
  | c :: p', d :: s' => if charMatches true c d then stripCI p' s' else none

/-- Shape of a matchable trailing hash fragment: a hash sign followed by at
least one character, none of them a line terminator. -/
def hashFragOK : List Char → Bool
  | [] => false
  | d :: r => d = '#' && !r.isEmpty && r.all notNL

/-! ## Dispatcher model

Handlers and middlewares are functions producing a trace of events, so that
ordering and invocation claims can be stated about the trace. A thrown
TypeError is modelled by the error component of the result. -/

/-- Observable events of a dispatch: the statechange emission, a handler
invocation (with the context it received), a middleware step, the watching
emission of the first run, and the call watch with an object literal holding
a url field that the redirect wrapper performs. -/
inductive Event where
  | statechange (path : String)
  | hrun (tag : Nat) (params : List (String × Option String)) (path : String)
  | mw (tag : Nat)
  | watching
  | watchObjCall (url : String)
deriving DecidableEq, Repr

/-- Route context built per dispatch: extracted params (in key order) and the
dispatched path. -/
structure Ctx where
  params : List (String × Option String)
  path : String
deriving DecidableEq, Repr

/-- A callable handler: receives the context, produces trace events. -/
abbrev Handler := Ctx → List Event

/-- Result of running a middleware chain or handler: trace events plus an
optional thrown error. -/
abbrev MWResult := List Event × Option String

/-- A middleware: receives the context and the continuation (the next
closure); it may or may not invoke the continuation. -/
abbrev MW := Ctx → (Unit → MWResult) → MWResult

/-- The handler value stored in a rule. The source checks
handler instanceof String, which holds only for String objects, so a
primitive string is stored as-is and is not callable. -/
inductive StoredHandler where
  | callable (h : Handler)
  | rawString (s : String)

/-- A registered rule: keys and regexp from pathToRegExp plus the stored
handler. -/
structure WRule where
  keys : List String
  regexp : JSRegExp
  handler : StoredHandler

/-- The handler argument passed to registration: a function, a primitive
string, or a String object (new String). -/
inductive HandlerArg where
  | func (h : Handler)
  | strPrim (s : String)
  | strObj (s : String)

/-- Builds the stored rule from the compiled pattern and the handler
argument, mirroring the instanceof String branch of createRule in
src/src/watchman.js: only a String object is wrapped, and the wrapper body
is watch applied to an object literal with a url field (which, by the
unary-object branch of watch, registers the pattern url rather than
dispatching). A primitive string is stored unchanged. -/
def mkWRule (cr : CompiledRule) (h : HandlerArg) : WRule :=
  match h with
  | .func f => ⟨cr.keys, cr.regexp, .callable f⟩
  | .strObj t => ⟨cr.keys, cr.regexp, .callable (fun _ => [Event.watchObjCall t])⟩
  | .strPrim s => ⟨cr.keys, cr.regexp, .rawString s⟩

/-- The test zero equals path.indexOf of the base, for string paths: exactly
a prefix test, implemented on the character lists. -/
def strHasBase (base s : String) : Bool := base.data.isPrefixOf s.data

/-- createRule of src/src/watchman.js. The guard reads: if the path is not
the literal asterisk and path.indexOf of the base is not zero, prepend the
base (dropping a bare slash). On a pre-built RegExp the call path.indexOf
throws, because RegExp values have no indexOf method. On an array,
Array.prototype.indexOf searches for the base as an element, and the string
concatenation base + path coerces the array to its comma-joined form. -/
def createRule (base : String) (path : PathPattern) (handler : HandlerArg) :
    Except String WRule :=
  match path with
  | .regex _ => .error "TypeError: path.indexOf is not a function"
  | .str s =>
    let s2 :=
      if s ≠ "*" && !(strHasBase base s) then
        base ++ (if s = "/" then "" else s)
      else s
    .ok (mkWRule (pathToRegExp (.str s2)) handler)
  | .arr xs =>
    if xs.head? = some base then
      .ok (mkWRule (pathToRegExp (.arr xs)) handler)
    else
      let j := String.intercalate "," xs
      let s2 := base ++ (if j = "/" then "" else j)
      .ok (mkWRule (pathToRegExp (.str s2)) handler)

/-- createRule of the legacy bundle (second version in src/watchman.js):
no base handling and no redirect wrapping; a string handler of either kind
is stored as a non-callable value. -/
def createRuleV2 (path : PathPattern) (handler : HandlerArg) : WRule :=
  match handler with
  | .func f => ⟨(pathToRegExpV2 path).keys, (pathToRegExpV2 path).regexp, .callable f⟩
  | .strPrim s => ⟨(pathToRegExpV2 path).keys, (pathToRegExpV2 path).regexp, .rawString s⟩
  | .strObj s => ⟨(pathToRegExpV2 path).keys, (pathToRegExpV2 path).regexp, .rawString s⟩

/-- Router state: the rules list (absent until the first registration, since
watch._watching is created lazily), the middleware list (likewise), the
running flag, and the base prefix. -/
structure WatchState where
  watching : Option (List WRule)
  middlewares : Option (List MW)
  running : Bool
  base : String

/-- Fresh router state: no rules, no middlewares, not running, empty base. -/
def initState : WatchState := ⟨none, none, false, ""⟩

/-- The two-argument branch of watch: compile the rule and push it onto
watch._watching, creating the list if absent. -/
def watchRegister (st : WatchState) (p : PathPattern) (h : HandlerArg) :
    Except String WatchState :=
  match createRule st.base p h with
  | .error e => .error e
  | .ok r =>
    .ok ⟨some (st.watching.getD [] ++ [r]), st.middlewares, st.running, st.base⟩

/-- watch.use: append the given middlewares, in argument order, creating the
list if absent. -/
def watchUse (st : WatchState) (fns : List MW) : WatchState :=
  ⟨st.watching, some (st.middlewares.getD [] ++ fns), st.running, st.base⟩

/-- paramsParser of src/src/watchman.js: re-run exec, drop the full match
(slice 1), and map each key, in order, to the capture at its index; a capture
past the end of the array or from a non-participating group is undefined.
(The none branch for the exec result is unreachable, since the dispatcher
calls paramsParser only for a rule whose exec succeeded.) -/
def paramsParser (url : String) (rule : WRule) : List (String × Option String) :=
  let ms :=
    match jsExecArr rule.regexp url with
    | some arr => arr.drop 1
    | none => []
  rule.keys.enum.map (fun p => (p.2, ms.getD p.1 none))

/-- Invoking the stored handler: a callable produces its events; a stored
primitive string is not a function, so the call hit(ctx) throws. -/
def hitFn (h : StoredHandler) : Ctx → MWResult :=
  match h with
  | .callable f => fun c => (f c, none)
  | .rawString _ => fun _ => ([], some "TypeError: hit is not a function")

/-- The layer function of watch.run: middleware at the current index, if
any, receives the context and the continuation that advances the index; when
the middlewares are exhausted the handler runs. -/
def layerChain : List MW → Ctx → (Ctx → MWResult) → MWResult
  | [], ctx, hit => hit ctx
  | m :: rest, ctx, hit => m ctx (fun _ => layerChain rest ctx hit)

/-- The body of a hit in watch.run: build params and context, then run the
middleware chain into the handler, or the handler directly when
watch._watchman_middlewares was never created. -/
def runHit (mws : Option (List MW)) (r : WRule) (path : String) : MWResult :=
  let ctx : Ctx := ⟨paramsParser path r, path⟩
  match mws with
  | some l => layerChain l ctx (hitFn r.handler)
  | none => hitFn r.handler ctx

/-- The rule loop of watch.run in src/src/watchman.js: scan in order, run
the first rule whose exec on the path succeeds, then break. -/
def runFirstHit : List WRule → Option (List MW) → String → MWResult
  | [], _, _ => ([], none)
  | r :: rest, mws, path =>
    if jsTest r.regexp path then runHit mws r path
    else runFirstHit rest mws path

/-- The rule loop of the legacy watch.run (src/watchman.js, lines 416-451):
no break statement, so every rule whose exec succeeds runs its middleware
chain and handler, in registration order. An error thrown inside a hit
aborts the loop. -/
def runAllHits : List WRule → Option (List MW) → String → MWResult
  | [], _, _ => ([], none)
  | r :: rest, mws, path =>
    if jsTest r.regexp path then
      match runHit mws r path with
      | (evs, some e) => (evs, some e)
      | (evs, none) =>
        let (evs2, err2) := runAllHits rest mws path
        (evs ++ evs2, err2)
    else runAllHits rest mws path

/-- Result of a watch.run call: the event trace and an optional thrown
error. -/
structure RunResult where
  events : List Event
  error : Option String
deriving DecidableEq, Repr

/-- The trailing block of watch.run: when the router is not yet running it
establishes navigation observation (browser plumbing, outside the model) and
emits the watching event. -/
def watchSetup (running : Bool) : List Event :=
  if running then [] else [Event.watching]

/-- watch.run of src/src/watchman.js with an explicit url option. It emits
statechange, then reads watch._watching: if no rule was ever registered that
property is undefined and reading its length throws. Otherwise the first
matching rule (if any) runs, and then the first-run setup block executes. -/
def watchRun (st : WatchState) (url : String) : RunResult :=
  let ev0 := [Event.statechange url]
  match st.watching with
  | none => ⟨ev0, some "TypeError: cannot read length of undefined"⟩
  | some rules =>
    match runFirstHit rules st.middlewares url with
    | (evs, some e) => ⟨ev0 ++ evs, some e⟩
    | (evs, none) => ⟨ev0 ++ evs ++ watchSetup st.running, none⟩

/-- watch.run of the legacy bundle (second version in src/watchman.js): same
shape, but the loop has no break, so all matching rules run. -/
def watchRunV2 (st : WatchState) (url : String) : RunResult :=
  let ev0 := [Event.statechange url]
  match st.watching with
  | none => ⟨ev0, some "TypeError: cannot read length of undefined"⟩
  | some rules =>
    match runAllHits rules st.middlewares url with
    | (evs, some e) => ⟨ev0 ++ evs, some e⟩
    | (evs, none) => ⟨ev0 ++ evs ++ watchSetup st.running, none⟩

/-! ## Event-emitter listener removal

Listeners are identified by tags (function identity in JavaScript). The
state maps event types to listener lists. -/

/-- Worker for jsIndexOf, carrying the current index. -/
def jsIndexOfGo : List Nat → Nat → Nat → Int
  | [], _, _ => -1
  | x :: rest, l, i => if x = l then Int.ofNat i else jsIndexOfGo rest l (i + 1)

/-- Array.prototype.indexOf: first index of the element, or minus one. -/
def jsIndexOf (xs : List Nat) (l : Nat) : Int := jsIndexOfGo xs l 0

/-- ECMAScript splice start-position normalisation: a negative start is
taken relative to the end and clamped at zero, a positive one is clamped at
the length. -/
def spliceStart (len : Nat) (start : Int) : Int :=
  if start < 0 then max ((len : Int) + start) 0 else min start (len : Int)

/-- Array.prototype.splice with delete count one: one element at the
normalised position is removed. -/
def jsSpliceDelOne (xs : List Nat) (start : Int) : List Nat :=
  xs.take (spliceStart xs.length start).toNat ++
    xs.drop ((spliceStart xs.length start).toNat + 1)

/-- The listener registry watch._events, mapping an event type to its
listener list. -/
abbrev EventsMap := List (String × List Nat)

/-- Reading watch._events at a type: undefined when the type is absent. -/
def lookupListeners : EventsMap → String → Option (List Nat)
  | [], _ => none
  | (t, hs) :: rest, ty => if t = ty then some hs else lookupListeners rest ty

/-- Writing back the (mutated in place) listener list of a type. -/
def updateListeners : EventsMap → String → List Nat → EventsMap
  | [], _, _ => []
  | (t, hs) :: rest, ty, v =>
    if t = ty then (t, v) :: rest else (t, hs) :: updateListeners rest ty v

/-- watch.removeEventListener: when the type has a listener list, splice out
one element at the position indexOf returns, whether or not the listener was
found. -/
def removeEventListener (ev : EventsMap) (ty : String) (listener : Nat) :
    EventsMap :=
  match lookupListeners ev ty with
  | none => ev
  | some hs => updateListeners ev ty (jsSpliceDelOne hs (jsIndexOf hs listener))

/-! ## Observable fixtures used by the claim theorems -/

/-- A handler that records its invocation with the context it received. -/
def tagHandler (n : Nat) : Handler := fun ctx => [Event.hrun n ctx.params ctx.path]

/-- A middleware that records its invocation and then either calls its
continuation or returns without calling it. -/
def mkMW (tag : Nat) (callNext : Bool) : MW :=
  fun _ next =>
    if callNext then
      let r := next ()
      (Event.mw tag :: r.1, r.2)
    else ([Event.mw tag], none)

/-- Registration that is known to succeed, for building concrete states: a
failed registration leaves the state unchanged. -/
def registerOrSkip (st : WatchState) (p : PathPattern) (h : HandlerArg) :
    WatchState :=
  match watchRegister st p h with
  | .ok st2 => st2
  | .error _ => st

/-- A concrete rule compiled from a string pattern with a tagged handler. -/
def ruleOf (p : String) (tag : Nat) : WRule :=
  mkWRule (pathToRegExp (.str p)) (.func (tagHandler tag))

/-! ## Restricted pattern grammar

The amended group-count invariant is stated over patterns built from plain
literal segments and defaulted parameter tokens — the forms the invariant
survives on; asterisks and explicit constraint groups break it, see the
counterexample. -/

/-- Characters allowed inside a literal segment: letters, digits, slash,
hyphen, underscore — no colon, asterisk, parentheses, backslash, brackets
or hash. -/
def litCharOK (c : Char) : Bool := c.isAlphanum || c = '/' || c = '-' || c = '_'

/-- True when the list does not end with a slash. -/
def lastNotSlash : List Char → Bool
  | [] => true
  | [c] => c ≠ '/'
  | _ :: rest => lastNotSlash rest

/-- True when the list starts with a slash. -/
def headIsSlash : List Char → Bool
  | [] => false
  | c :: _ => c = '/'

/-- A segment of the restricted grammar: a literal piece or a named
parameter, rendered as slash colon name. -/
inductive Seg where
  | lit (s : String)
  | param (name : String)

/-- Well-formedness: a literal is non-empty, starts with a slash, does not
end with one, and uses only plain characters; a parameter name is a
non-empty word. -/
def segWF : Seg → Bool
  | .lit s =>
    !s.data.isEmpty && headIsSlash s.data && s.data.all litCharOK &&
      lastNotSlash s.data
  | .param n => !n.data.isEmpty && n.data.all isWordChar

/-- Well-formedness of a whole restricted pattern. -/
def segsWF (segs : List Seg) : Bool := segs.all segWF

/-- Pattern text of one segment. -/
def renderSeg : Seg → List Char
  | .lit s => s.data
  | .param n => '/' :: ':' :: n.data

/-- Pattern text of a restricted pattern. -/
def renderChars (segs : List Seg) : List Char := segs.flatMap renderSeg

/-- Image of one segment under the first replace. -/
def t1Seg : Seg → List Char
  | .lit s => s.data
  | .param n => '(' :: '?' :: ':' :: n.data

/-- Image of a restricted pattern under the first replace. -/
def t1Chars (segs : List Seg) : List Char := segs.flatMap t1Seg

/-- The compiled text of a defaulted parameter token. -/
def paramChunk : List Char := "(?:/?([^/]+)?)".data

/-- Image of one segment in the compiled body. -/
def bodySeg : Seg → List Char
  | .lit s => s.data
  | .param _ => paramChunk

/-- Compiled body of a restricted pattern. -/
def bodyChars (segs : List Seg) : List Char := segs.flatMap bodySeg

/-- The parameter names of a restricted pattern, in order of appearance. -/
def paramNames : List Seg → List String
  | [] => []
  | .lit _ :: rest => paramNames rest
  | .param n :: rest => n :: paramNames rest

/-- Scan steps the second replace spends on a restricted pattern: one per
literal character and one per parameter token. -/
def stepCount : List Seg → Nat
  | [] => 0
  | .lit s :: rest => s.data.length + stepCount rest
  | .param _ :: rest => 1 + stepCount rest

/-- No two adjacent closing parentheses anywhere in the list. -/
def noDC : List Char → Bool
  | [] => true
  | [_] => true
  | a :: b :: rest => !(a = ')' && b = ')') && noDC (b :: rest)

/-! ## Lemmas about the dispatch loop -/

/-- Once a matching rule is present, every rule registered after it is
irrelevant to the dispatch loop with break: the loop never reaches them. -/
theorem runFirstHit_append_of_match (rs1 rs2 : List WRule) (r : WRule)
    (mws : Option (List MW)) (path : String)
    (h1 : jsTest r.regexp path = true) :
    runFirstHit (rs1 ++ r :: rs2) mws path = runFirstHit (rs1 ++ [r]) mws path := by
  induction rs1 with
  | nil => simp [runFirstHit, h1]
  | cons a as ih =>
    cases hA : jsTest a.regexp path <;>
      simp [runFirstHit, hA, ih]

/-- A prefix of rules none of which matches is skipped by the dispatch
loop. -/
theorem runFirstHit_skip (rs1 rs2 : List WRule)
    (mws : Option (List MW)) (path : String)
    (h2 : rs1.all (fun q => ! jsTest q.regexp path) = true) :
    runFirstHit (rs1 ++ rs2) mws path = runFirstHit rs2 mws path := by
  induction rs1 with
  | nil => rfl
  | cons a as ih =>
    simp only [List.all_cons, Bool.and_eq_true, Bool.not_eq_true'] at h2
    simp [runFirstHit, h2.1, ih h2.2]

/-- When no rule matches, the dispatch loop produces no events and no
error. -/
theorem runFirstHit_all_miss (rules : List WRule)
    (mws : Option (List MW)) (path : String)
    (h : rules.all (fun q => ! jsTest q.regexp path) = true) :
    runFirstHit rules mws path = ([], none) := by
  have h2 := runFirstHit_skip rules [] mws path h
  simpa using h2

/-! ## Lemmas about listener removal -/

/-- indexOf misses at every start index when the element is absent. -/
theorem jsIndexOfGo_not_mem (xs : List Nat) (l : Nat) (i : Nat)
    (h : l ∉ xs) : jsIndexOfGo xs l i = -1 := by
  induction xs generalizing i with
  | nil => rfl
  | cons x rest ih =>
    simp only [List.mem_cons, not_or] at h
    have hxl : ¬ (x = l) := fun hx => h.1 hx.symm
    simp [jsIndexOfGo, hxl, ih (i + 1) h.2]

/-- indexOf of an absent element is minus one. -/
theorem jsIndexOf_not_mem (xs : List Nat) (l : Nat) (h : l ∉ xs) :
    jsIndexOf xs l = -1 :=
  jsIndexOfGo_not_mem xs l 0 h

/-- Splicing one element at position minus one drops the last element. -/
theorem jsSpliceDelOne_neg_one (xs : List Nat) :
    jsSpliceDelOne xs (-1) = xs.dropLast := by
  cases xs with
  | nil => rfl
  | cons x rest =>
    have hs : spliceStart (x :: rest).length (-1) = (rest.length : Int) := by
      simp only [spliceStart, List.length_cons]
      rw [if_pos (by omega : (-1 : Int) < 0)]
      omega
    simp only [jsSpliceDelOne, hs, Int.toNat_natCast]
    have hdrop : (x :: rest).drop (rest.length + 1) = [] := by
      have h := List.drop_length (x :: rest)
      simp only [List.length_cons] at h
      exact h
    rw [hdrop, List.append_nil, List.dropLast_eq_take]
    simp

/-- Updating the listener list of a present type is visible to a subsequent
lookup. -/
theorem lookupListeners_update (ev : EventsMap) (ty : String)
    (hs v : List Nat) (h : lookupListeners ev ty = some hs) :
    lookupListeners (updateListeners ev ty v) ty = some v := by
  induction ev with
  | nil => simp [lookupListeners] at h
  | cons p rest ih =>
    by_cases hp : p.1 = ty
    · simp [lookupListeners, updateListeners, hp]
    · simp only [lookupListeners, updateListeners, if_neg hp] at h ⊢
      exact ih h

/-! ## Lemmas about the replace pipeline on restricted patterns -/

/-- A plain literal character is not a colon, parenthesis, backslash,
bracket or asterisk. -/
theorem litCharOK_facts (c : Char) (h : litCharOK c = true) :
    c ≠ ':' ∧ c ≠ '(' ∧ c ≠ ')' ∧ c ≠ '\\' ∧ c ≠ '[' ∧ c ≠ '*' ∧ c ≠ '#' := by
  have hcase : ((c.isAlphanum = true ∨ c = '/') ∨ c = '-') ∨ c = '_' := by
    simpa [litCharOK, Bool.or_eq_true, decide_eq_true_eq] using h
  rcases hcase with ((h1 | h1) | h1) | h1
  · refine ⟨?_, ?_, ?_, ?_, ?_, ?_, ?_⟩ <;>
      (intro he; rw [he] at h1; exact absurd h1 (by decide))
  all_goals (subst h1; refine ⟨by decide, by decide, by decide, by decide,
    by decide, by decide, by decide⟩)

/-- A word character is a plain literal character. -/
theorem wordChar_litOK (c : Char) (h : isWordChar c = true) :
    litCharOK c = true := by
  have hcase : c.isAlphanum = true ∨ c = '_' := by
    simpa [isWordChar, Bool.or_eq_true, decide_eq_true_eq] using h
  rcases hcase with h1 | h1 <;> simp [litCharOK, h1]

/-- A word character is neither a slash nor a colon nor an opening
parenthesis, and is not in the slash-paren class. -/
theorem wordChar_facts (c : Char) (h : isWordChar c = true) :
    c ≠ '/' ∧ isSlashParen c = false := by
  have hcase : c.isAlphanum = true ∨ c = '_' := by
    simpa [isWordChar, Bool.or_eq_true, decide_eq_true_eq] using h
  rcases hcase with h1 | h1
  · have hs : c ≠ '/' := by intro he; rw [he] at h1; exact absurd h1 (by decide)
    have hp : c ≠ '(' := by intro he; rw [he] at h1; exact absurd h1 (by decide)
    exact ⟨hs, by simp [isSlashParen, hs, hp]⟩
  · subst h1; exact ⟨by decide, by decide⟩

/-- A plain literal character other than a slash is outside the slash-paren
class and is not a colon. -/
theorem litCharOK_not_special (c : Char) (h : litCharOK c = true)
    (h2 : c ≠ '/') : isSlashParen c = false ∧ c ≠ ':' := by
  have hparen : c ≠ '(' := (litCharOK_facts c h).2.1
  have hcolon : c ≠ ':' := (litCharOK_facts c h).1
  exact ⟨by simp [isSlashParen, h2, hparen], hcolon⟩

/-- All-word lists end in a non-slash character. -/
theorem wordAll_lastNotSlash (n : List Char) (h : n.all isWordChar = true) :
    lastNotSlash n = true := by
  induction n with
  | nil => rfl
  | cons c l ih =>
    rw [List.all_cons, Bool.and_eq_true] at h
    cases l with
    | nil =>
      have hc := (wordChar_facts c h.1).1
      simp [lastNotSlash, hc]
    | cons d l' => exact ih h.2

/-- All-word lists are all-plain. -/
theorem wordAll_litAll (n : List Char) (h : n.all isWordChar = true) :
    n.all litCharOK = true := by
  rw [List.all_eq_true] at h ⊢
  intro c hc
  exact wordChar_litOK c (h c hc)

/-- The first replace copies a literal segment through unchanged, flushing
any pending run, and continues fresh on the remainder. -/
theorem repSepColonGo_lit (l : List Char) :
    ∀ (acc rest : List Char), l.all litCharOK = true →
    lastNotSlash l = true → l ≠ [] →
    repSepColonGo acc (l ++ rest) = acc.reverse ++ (l ++ repSepColonGo [] rest) := by
  induction l with
  | nil => intro acc rest _ _ hne; exact absurd rfl hne
  | cons c l' ih =>
    intro acc rest hall hlast _
    rw [List.all_cons, Bool.and_eq_true] at hall
    by_cases hcs : c = '/'
    · subst hcs
      cases l' with
      | nil => simp [lastNotSlash] at hlast
      | cons d l'' =>
        have hstep : repSepColonGo acc ('/' :: ((d :: l'') ++ rest)) =
            repSepColonGo ('/' :: acc) ((d :: l'') ++ rest) := by
          simp [repSepColonGo, isSlashParen]
        rw [List.cons_append, hstep,
          ih ('/' :: acc) rest hall.2 hlast (by simp)]
        simp
    · have hfacts := litCharOK_not_special c hall.1 hcs
      have hstep : repSepColonGo acc (c :: (l' ++ rest)) =
          acc.reverse ++ c :: repSepColonGo [] (l' ++ rest) := by
        simp [repSepColonGo, hfacts.1, hfacts.2]
      rw [List.cons_append, hstep]
      cases l' with
      | nil => simp
      | cons d l'' =>
        rw [ih [] rest hall.2 hlast (by simp)]
        simp

/-- The first replace rewrites a parameter token: the slash-colon pair
becomes the opening of a non-capturing group and the name is copied. -/
theorem repSepColonGo_param (n rest : List Char)
    (hn : n.all isWordChar = true) (hne : n ≠ []) :
    repSepColonGo [] ('/' :: ':' :: (n ++ rest)) =
      '(' :: '?' :: ':' :: (n ++ repSepColonGo [] rest) := by
  have h1 : repSepColonGo [] ('/' :: ':' :: (n ++ rest)) =
      repSepColonGo ['/'] (':' :: (n ++ rest)) := by
    simp [repSepColonGo, isSlashParen]
  have h2 : repSepColonGo ['/'] (':' :: (n ++ rest)) =
      '(' :: '?' :: ':' :: repSepColonGo [] (n ++ rest) := by
    simp [repSepColonGo, isSlashParen]
  rw [h1, h2, repSepColonGo_lit n [] rest (wordAll_litAll n hn)
    (wordAll_lastNotSlash n hn) hne]
  simp

/-- The first replace maps a well-formed restricted pattern to its expected
image. -/
theorem repSepColon_render (segs : List Seg) (h : segsWF segs = true) :
    repSepColon (renderChars segs) = t1Chars segs := by
  induction segs with
  | nil => rfl
  | cons s rest ih =>
    rw [segsWF, List.all_cons, Bool.and_eq_true] at h
    have ihr := ih h.2
    cases s with
    | lit str =>
      have hs := h.1
      rw [segWF] at hs
      simp only [Bool.and_eq_true] at hs
      have hne : str.data ≠ [] := by
        intro he
        rw [he] at hs
        simp at hs
      rw [show renderChars (Seg.lit str :: rest) =
            str.data ++ renderChars rest from rfl,
        show t1Chars (Seg.lit str :: rest) = str.data ++ t1Chars rest from rfl]
      rw [repSepColon] at ihr ⊢
      rw [repSepColonGo_lit str.data [] (renderChars rest) hs.1.2 hs.2 hne]
      simp only [List.reverse_nil, List.nil_append]
      rw [ihr]
    | param n =>
      have hs := h.1
      rw [segWF] at hs
      simp only [Bool.and_eq_true] at hs
      have hne : n.data ≠ [] := by
        intro he
        rw [he] at hs
        simp at hs
      rw [show renderChars (Seg.param n :: rest) =
            '/' :: ':' :: (n.data ++ renderChars rest) from rfl,
        show t1Chars (Seg.param n :: rest) =
            '(' :: '?' :: ':' :: (n.data ++ t1Chars rest) from rfl]
      rw [repSepColon] at ihr ⊢
      rw [repSepColonGo_param n.data (renderChars rest) hs.2 hne, ihr]

/-- splitAtChar misses when the target is absent. -/
theorem splitAtChar_not_mem (t : Char) (l : List Char) (h : t ∉ l) :
    splitAtChar t l = none := by
  induction l with
  | nil => rfl
  | cons c rest ih =>
    rw [List.mem_cons, not_or] at h
    have hc : ¬ (c = t) := fun he => h.1 he.symm
    simp [splitAtChar, hc, ih h.2]

/-- With no closing parenthesis ahead, no constraint unit is collected. -/
theorem grabGroups_no_close (f : Nat) (s : List Char) (h : ')' ∉ s) :
    grabGroups f s = ([], s) := by
  cases f with
  | zero => rfl
  | succ f' =>
    cases s with
    | nil => rfl
    | cons c rest =>
      by_cases hc : c = '('
      · subst hc
        have hsp : splitAtChar ')' rest = none :=
          splitAtChar_not_mem ')' rest (fun hm => h (List.mem_cons_of_mem _ hm))
        simp [grabGroups, hsp]
      · simp [grabGroups, hc]

/-- takeWhile over an all-true block stops exactly at a failing head. -/
theorem takeWhile_block (p : Char → Bool) (n rest : List Char)
    (hn : n.all p = true)
    (hrest : ∀ c, rest.head? = some c → p c = false) :
    (n ++ rest).takeWhile p = n ∧ (n ++ rest).dropWhile p = rest := by
  induction n with
  | nil =>
    cases rest with
    | nil => exact ⟨rfl, rfl⟩
    | cons c r2 =>
      have hc := hrest c rfl
      simp [List.takeWhile, List.dropWhile, hc]
  | cons c n' ih =>
    rw [List.all_cons, Bool.and_eq_true] at hn
    have := ih hn.2
    simp [List.takeWhile, List.dropWhile, hn.1, this.1, this.2]

/-- The second replace copies characters other than opening parentheses
through unchanged, spending one unit of fuel per character. -/
theorem repParamKeysGo_lit (l : List Char) :
    ∀ (f : Nat) (rest : List Char), (∀ c ∈ l, c ≠ '(') →
    repParamKeysGo (l.length + f) (l ++ rest) =
      (l ++ (repParamKeysGo f rest).1, (repParamKeysGo f rest).2) := by
  induction l with
  | nil => intro f rest _; simp
  | cons c l' ih =>
    intro f rest h
    have hc : c ≠ '(' := h c (List.mem_cons_self c l')
    have hrec := ih f rest (fun d hd => h d (List.mem_cons_of_mem c hd))
    rw [show (c :: l').length + f = (l'.length + f) + 1 from by
      simp [List.length_cons]; omega]
    rw [List.cons_append]
    simp only [repParamKeysGo, if_neg hc]
    rw [hrec]
    simp

/-- The second replace rewrites one parameter token into the default
compiled chunk and records its name, consuming one unit of fuel. -/
theorem repParamKeysGo_param (n : List Char) (f : Nat) (rest : List Char)
    (hn : n.all isWordChar = true) (hne : n ≠ [])
    (hhead : ∀ c, rest.head? = some c → isWordChar c = false)
    (hnoc : ')' ∉ rest) :
    repParamKeysGo (1 + f) ('(' :: '?' :: ':' :: (n ++ rest)) =
      (paramChunk ++ (repParamKeysGo f rest).1,
       n.asString :: (repParamKeysGo f rest).2) := by
  cases n with
  | nil => exact absurd rfl hne
  | cons d n' =>
    rw [List.all_cons, Bool.and_eq_true] at hn
    have htw := takeWhile_block isWordChar (d :: n') rest
      (by rw [List.all_cons, Bool.and_eq_true]; exact hn) hhead
    rw [Nat.add_comm 1 f]
    show repParamKeysGo (f + 1) ('(' :: '?' :: ':' :: d :: (n' ++ rest)) = _
    simp only [repParamKeysGo, if_pos rfl]
    rw [show ('?' :: ':' :: d :: (n' ++ rest) : List Char) =
      '?' :: ':' :: d :: (n' ++ rest) from rfl]
    simp only [hn.1, if_pos]
    have htake : (d :: (n' ++ rest)).takeWhile isWordChar = d :: n' := htw.1
    have hdrop : (d :: (n' ++ rest)).dropWhile isWordChar = rest := htw.2
    rw [htake, hdrop, grabGroups_no_close rest.length rest hnoc]
    simp [paramChunk, defaultSegment]

/-- The image of a well-formed restricted pattern under the first replace
contains no closing parenthesis. -/
theorem t1Chars_no_close (segs : List Seg) (h : segsWF segs = true) :
    ')' ∉ t1Chars segs := by
  induction segs with
  | nil => simp [t1Chars]
  | cons s rest ih =>
    rw [segsWF, List.all_cons, Bool.and_eq_true] at h
    intro hm
    rw [show t1Chars (s :: rest) = t1Seg s ++ t1Chars rest from rfl,
      List.mem_append] at hm
    rcases hm with hm | hm
    · cases s with
      | lit str =>
        have hs := h.1
        rw [segWF] at hs
        simp only [Bool.and_eq_true] at hs
        have hall := hs.1.2
        rw [List.all_eq_true] at hall
        have hfact := litCharOK_facts ')' (hall ')' hm)
        exact absurd rfl hfact.2.2.1
      | param n =>
        have hs := h.1
        rw [segWF] at hs
        simp only [Bool.and_eq_true] at hs
        simp only [t1Seg, List.mem_cons] at hm
        rcases hm with hm | hm | hm | hm
        · exact absurd hm (by decide)
        · exact absurd hm (by decide)
        · exact absurd hm (by decide)
        · have hall := hs.2
          rw [List.all_eq_true] at hall
          exact absurd (hall ')' hm) (by decide)
    · exact ih h.2 hm

/-- The image of a well-formed restricted pattern under the first replace
never starts with a word character. -/
theorem t1Chars_head_not_word (segs : List Seg) (h : segsWF segs = true) :
    ∀ c, (t1Chars segs).head? = some c → isWordChar c = false := by
  cases segs with
  | nil => intro c hc; simp [t1Chars] at hc
  | cons s rest =>
    rw [segsWF, List.all_cons, Bool.and_eq_true] at h
    intro c hc
    cases s with
    | lit str =>
      have hs := h.1
      rw [segWF] at hs
      simp only [Bool.and_eq_true] at hs
      have hhead := hs.1.1.2
      rw [show t1Chars (Seg.lit str :: rest) =
        str.data ++ t1Chars rest from rfl] at hc
      cases hd : str.data with
      | nil => rw [hd] at hhead; simp [headIsSlash] at hhead
      | cons a tl =>
        rw [hd] at hc hhead
        simp only [headIsSlash, decide_eq_true_eq] at hhead
        subst hhead
        simp only [List.cons_append, List.head?_cons, Option.some.injEq] at hc
        subst hc
        decide
    | param n =>
      rw [show t1Chars (Seg.param n :: rest) =
        '(' :: '?' :: ':' :: (n.data ++ t1Chars rest) from rfl] at hc
      simp only [List.head?_cons, Option.some.injEq] at hc
      subst hc
      decide

/-- The second replace spends at most one unit of fuel per character of the
first-replace image. -/
theorem stepCount_le (segs : List Seg) :
    stepCount segs ≤ (t1Chars segs).length := by
  induction segs with
  | nil => simp [stepCount, t1Chars]
  | cons s rest ih =>
    rw [show t1Chars (s :: rest) = t1Seg s ++ t1Chars rest from rfl]
    cases s with
    | lit str =>
      simp only [stepCount, t1Seg, List.length_append]
      omega
    | param n =>
      simp only [stepCount, t1Seg, List.length_cons, List.length_append]
      omega

/-- The second replace maps the first-replace image of a well-formed
restricted pattern to the compiled body plus the ordered parameter names. -/
theorem repParamKeysGo_render (segs : List Seg) :
    ∀ (k : Nat), segsWF segs = true →
    repParamKeysGo (stepCount segs + (k + 1)) (t1Chars segs) =
      (bodyChars segs, paramNames segs) := by
  induction segs with
  | nil => intro k _; rfl
  | cons s rest ih =>
    intro k h
    rw [segsWF, List.all_cons, Bool.and_eq_true] at h
    have hwf2 : segsWF rest = true := h.2
    cases s with
    | lit str =>
      have hs := h.1
      rw [segWF] at hs
      simp only [Bool.and_eq_true] at hs
      have hall := hs.1.2
      rw [List.all_eq_true] at hall
      rw [show t1Chars (Seg.lit str :: rest) =
          str.data ++ t1Chars rest from rfl,
        show stepCount (Seg.lit str :: rest) =
          str.data.length + stepCount rest from rfl,
        Nat.add_assoc,
        repParamKeysGo_lit str.data (stepCount rest + (k + 1)) (t1Chars rest)
          (fun c hc => (litCharOK_facts c (hall c hc)).2.1),
        ih k hwf2]
      rfl
    | param n =>
      have hs := h.1
      rw [segWF] at hs
      simp only [Bool.and_eq_true] at hs
      have hne : n.data ≠ [] := by
        intro he; rw [he] at hs; simp at hs
      rw [show t1Chars (Seg.param n :: rest) =
          '(' :: '?' :: ':' :: (n.data ++ t1Chars rest) from rfl,
        show stepCount (Seg.param n :: rest) = 1 + stepCount rest from rfl,
        Nat.add_assoc,
        repParamKeysGo_param n.data (stepCount rest + (k + 1)) (t1Chars rest)
          hs.2 hne (t1Chars_head_not_word rest hwf2)
          (t1Chars_no_close rest hwf2),
        ih k hwf2]
      rfl

/-- The second replace, at the fuel its wrapper supplies, compiles a
well-formed restricted pattern to body and names. -/
theorem repParamKeys_render (segs : List Seg) (h : segsWF segs = true) :
    repParamKeys (t1Chars segs) = (bodyChars segs, paramNames segs) := by
  rw [repParamKeys]
  have hle := stepCount_le segs
  obtain ⟨k, hk⟩ : ∃ k, (t1Chars segs).length + 1 = stepCount segs + (k + 1) :=
    ⟨(t1Chars segs).length - stepCount segs, by omega⟩
  rw [hk, repParamKeysGo_render segs k h]

/-- Lists without adjacent closing parentheses are untouched by the third
replace. -/
theorem repDoubleClose_id (s : List Char) (h : noDC s = true) :
    repDoubleClose s = s := by
  induction s with
  | nil => rfl
  | cons a rest ih =>
    cases rest with
    | nil => rfl
    | cons b r2 =>
      rw [noDC, Bool.and_eq_true, Bool.not_eq_true'] at h
      simp [repDoubleClose, h.1, ih h.2]

/-- Concatenation preserves absence of adjacent closing parentheses when
the second part does not begin with one. -/
theorem noDC_append (a b : List Char) (ha : noDC a = true) (hb : noDC b = true)
    (hh : ∀ c, b.head? = some c → c ≠ ')') : noDC (a ++ b) = true := by
  induction a with
  | nil => exact hb
  | cons x a' ih =>
    cases a' with
    | nil =>
      cases b with
      | nil => rfl
      | cons y b' =>
        have hy : y ≠ ')' := hh y rfl
        rw [List.cons_append, List.nil_append, noDC, Bool.and_eq_true,
          Bool.not_eq_true']
        constructor
        · simp [hy]
        · exact hb
    | cons z a'' =>
      rw [noDC, Bool.and_eq_true, Bool.not_eq_true'] at ha
      rw [List.cons_append, List.cons_append, noDC, Bool.and_eq_true,
        Bool.not_eq_true']
      refine ⟨ha.1, ?_⟩
      have := ih ha.2
      rw [List.cons_append] at this
      exact this

/-- A list without any closing parenthesis has no adjacent pair. -/
theorem noDC_of_no_close (l : List Char) (h : ∀ c ∈ l, c ≠ ')') :
    noDC l = true := by
  induction l with
  | nil => rfl
  | cons a rest ih =>
    cases rest with
    | nil => rfl
    | cons b r2 =>
      rw [noDC, Bool.and_eq_true, Bool.not_eq_true']
      refine ⟨?_, ih (fun c hc => h c (List.mem_cons_of_mem a hc))⟩
      have ha := h a (List.mem_cons_self a (b :: r2))
      simp [ha]

/-- The compiled body of a well-formed restricted pattern never starts with
a closing parenthesis. -/
theorem bodyChars_head_not_close (segs : List Seg) (h : segsWF segs = true) :
    ∀ c, (bodyChars segs).head? = some c → c ≠ ')' := by
  cases segs with
  | nil => intro c hc; simp [bodyChars] at hc
  | cons s rest =>
    rw [segsWF, List.all_cons, Bool.and_eq_true] at h
    intro c hc
    cases s with
    | lit str =>
      have hs := h.1
      rw [segWF] at hs
      simp only [Bool.and_eq_true] at hs
      have hhead := hs.1.1.2
      rw [show bodyChars (Seg.lit str :: rest) =
        str.data ++ bodyChars rest from rfl] at hc
      cases hd : str.data with
      | nil => rw [hd] at hhead; simp [headIsSlash] at hhead
      | cons a tl =>
        rw [hd] at hc hhead
        simp only [headIsSlash, decide_eq_true_eq] at hhead
        subst hhead
        simp only [List.cons_append, List.head?_cons, Option.some.injEq] at hc
        subst hc
        decide
    | param n =>
      rw [show bodyChars (Seg.param n :: rest) =
        paramChunk ++ bodyChars rest from rfl] at hc
      simp only [paramChunk] at hc
      simp only [List.cons_append, List.head?_cons, Option.some.injEq] at hc
      subst hc
      decide

/-- The compiled body of a well-formed restricted pattern has no adjacent
closing parentheses, so the double-close fixup leaves it unchanged. -/
theorem bodyChars_noDC (segs : List Seg) (h : segsWF segs = true) :
    noDC (bodyChars segs) = true := by
  induction segs with
  | nil => rfl
  | cons s rest ih =>
    rw [segsWF, List.all_cons, Bool.and_eq_true] at h
    rw [show bodyChars (s :: rest) = bodySeg s ++ bodyChars rest from rfl]
    have hrest := ih h.2
    have hhead := bodyChars_head_not_close rest h.2
    cases s with
    | lit str =>
      have hs := h.1
      rw [segWF] at hs
      simp only [Bool.and_eq_true] at hs
      have hall := hs.1.2
      rw [List.all_eq_true] at hall
      refine noDC_append str.data (bodyChars rest) ?_ hrest hhead
      exact noDC_of_no_close str.data
        (fun c hc => (litCharOK_facts c (hall c hc)).2.2.1)
    | param n =>
      exact noDC_append paramChunk (bodyChars rest) (by decide) hrest hhead

/-- Lists without asterisks are untouched by the fourth replace. -/
theorem repStar_id (s : List Char) (h : ∀ c ∈ s, c ≠ '*') :
    repStar s = s := by
  induction s with
  | nil => rfl
  | cons c rest ih =>
    have hc := h c (List.mem_cons_self c rest)
    rw [repStar] at ih ⊢
    rw [List.flatMap_cons, if_neg hc,
      ih (fun d hd => h d (List.mem_cons_of_mem c hd))]
    rfl

/-- The compiled body of a well-formed restricted pattern holds no
asterisk. -/
theorem bodyChars_no_star (segs : List Seg) (h : segsWF segs = true) :
    ∀ c ∈ bodyChars segs, c ≠ '*' := by
  induction segs with
  | nil => intro c hc; simp [bodyChars] at hc
  | cons s rest ih =>
    rw [segsWF, List.all_cons, Bool.and_eq_true] at h
    intro c hc
    rw [show bodyChars (s :: rest) = bodySeg s ++ bodyChars rest from rfl,
      List.mem_append] at hc
    rcases hc with hc | hc
    · cases s with
      | lit str =>
        have hs := h.1
        rw [segWF] at hs
        simp only [Bool.and_eq_true] at hs
        have hall := hs.1.2
        rw [List.all_eq_true] at hall
        exact (litCharOK_facts c (hall c hc)).2.2.2.2.2.1
      | param n =>
        rw [show bodySeg (Seg.param n) = paramChunk from rfl] at hc
        intro he
        subst he
        exact absurd hc (by decide)
    · exact ih h.2 c hc

/-- A well-formed restricted pattern is not a hash route. -/
theorem renderChars_not_hash (segs : List Seg) (h : segsWF segs = true) :
    isHashRouter (renderChars segs) = false := by
  cases segs with
  | nil => rfl
  | cons s rest =>
    rw [segsWF, List.all_cons, Bool.and_eq_true] at h
    cases s with
    | lit str =>
      have hs := h.1
      rw [segWF] at hs
      simp only [Bool.and_eq_true] at hs
      have hhead := hs.1.1.2
      rw [show renderChars (Seg.lit str :: rest) =
        str.data ++ renderChars rest from rfl]
      cases hd : str.data with
      | nil => rw [hd] at hhead; simp [headIsSlash] at hhead
      | cons a tl =>
        rw [hd] at hhead
        simp only [headIsSlash, decide_eq_true_eq] at hhead
        subst hhead
        rfl
    | param n => rfl

/-- Counting capturing groups skips an ordinary character. -/
theorem countCapGo_step (c : Char) (t : List Char)
    (h1 : c ≠ '\\') (h2 : c ≠ '(') (h3 : c ≠ '[') :
    countCapGo false (c :: t) = countCapGo false t := by
  rw [countCapGo.eq_def]
  split <;> simp_all

/-- Counting capturing groups passes over a block of plain characters. -/
theorem countCapGo_lit (l : List Char) :
    ∀ (t : List Char), (∀ c ∈ l, c ≠ '\\' ∧ c ≠ '(' ∧ c ≠ '[') →
    countCapGo false (l ++ t) = countCapGo false t := by
  induction l with
  | nil => intro t _; rfl
  | cons c l' ih =>
    intro t h
    have hc := h c (List.mem_cons_self c l')
    rw [List.cons_append, countCapGo_step c (l' ++ t) hc.1 hc.2.1 hc.2.2,
      ih t (fun d hd => h d (List.mem_cons_of_mem c hd))]

/-- The defaulted parameter chunk holds exactly one capturing group. -/
theorem countCapGo_chunk (t : List Char) :
    countCapGo false (paramChunk ++ t) = 1 + countCapGo false t := rfl

/-- The compiled body of a well-formed restricted pattern holds exactly one
capturing group per parameter, before any suffix. -/
theorem countCapGo_body (segs : List Seg) :
    ∀ (t : List Char), segsWF segs = true →
    countCapGo false (bodyChars segs ++ t) =
      (paramNames segs).length + countCapGo false t := by
  induction segs with
  | nil => intro t _; simp [bodyChars, paramNames]
  | cons s rest ih =>
    intro t h
    rw [segsWF, List.all_cons, Bool.and_eq_true] at h
    rw [show bodyChars (s :: rest) = bodySeg s ++ bodyChars rest from rfl,
      List.append_assoc]
    cases s with
    | lit str =>
      have hs := h.1
      rw [segWF] at hs
      simp only [Bool.and_eq_true] at hs
      have hall := hs.1.2
      rw [List.all_eq_true] at hall
      rw [show bodySeg (Seg.lit str) = str.data from rfl]
      rw [countCapGo_lit str.data (bodyChars rest ++ t) (fun c hc =>
        ⟨(litCharOK_facts c (hall c hc)).2.2.2.1,
         (litCharOK_facts c (hall c hc)).2.1,
         (litCharOK_facts c (hall c hc)).2.2.2.2.1⟩)]
      rw [ih t h.2]
      rfl
    | param n =>
      rw [show bodySeg (Seg.param n) = paramChunk from rfl,
        countCapGo_chunk, ih t h.2]
      rw [show paramNames (Seg.param n :: rest) =
        n :: paramNames rest from rfl]
      simp only [List.length_cons]
      omega

/-! ## Lemmas about the regex model on anchored literal patterns -/

/-- The parser reads the hash-fragment suffix to the expected tree, for any
spare fuel: the computation is fuel-generic because every branch condition
is concrete. -/
theorem parse_suffix (f : Nat) :
    parseGo (f + 30) .pseq ("((#.+)?)$".data) 1 =
      some (hashSuffixRE, [], 3) := rfl

/-- A plain literal character is ordinary for the regex parser: none of the
special atom or quantifier characters. -/
theorem litCharOK_atom (c : Char) (h : litCharOK c = true) :
    c ≠ '(' ∧ c ≠ '[' ∧ c ≠ '\\' ∧ c ≠ '.' ∧ c ≠ '$' ∧ c ≠ ')' ∧
      c ≠ '|' ∧ c ≠ '*' ∧ c ≠ '+' ∧ c ≠ '?' ∧ c ≠ '^' := by
  have hcase : ((c.isAlphanum = true ∨ c = '/') ∨ c = '-') ∨ c = '_' := by
    simpa [litCharOK, Bool.or_eq_true, decide_eq_true_eq] using h
  rcases hcase with ((h1 | h1) | h1) | h1
  · refine ⟨?_, ?_, ?_, ?_, ?_, ?_, ?_, ?_, ?_, ?_, ?_⟩ <;>
      (intro he; rw [he] at h1; exact absurd h1 (by decide))
  all_goals (subst h1; refine ⟨by decide, by decide, by decide, by decide,
    by decide, by decide, by decide, by decide, by decide, by decide,
    by decide⟩)

/-- An atom followed by a non-quantifier character is not quantified. -/
theorem withQuant_no_quant (a : RE) (s : List Char)
    (h : ∀ c, s.head? = some c → c ≠ '*' ∧ c ≠ '+' ∧ c ≠ '?') :
    withQuant a s = (a, s) := by
  cases s with
  | nil => rfl
  | cons c rest =>
    have hc := h c rfl
    simp [withQuant, hc.1, hc.2.1, hc.2.2]

/-- One step of the parser in sequence mode on a non-empty input. -/
theorem parseGo_succ_pseq_cons (fuel : Nat) (c : Char) (rest : List Char)
    (g : Nat) :
    parseGo (fuel + 1) .pseq (c :: rest) g =
      (if c = ')' || c = '|' then some (RE.eps, c :: rest, g)
       else do
         let (a, s1, g1) ← parseGo fuel .patom (c :: rest) g
         let (b, s2, g2) ← parseGo fuel .pseq s1 g1
         some (RE.seq a b, s2, g2)) := rfl

/-- One step of the parser in atom mode on an ordinary literal character
followed by no quantifier: the whole special-character if-chain falls
through to an unquantified literal atom. -/
theorem parseGo_succ_patom_lit (fuel : Nat) (c : Char) (rest : List Char)
    (g : Nat) (hc : litCharOK c = true)
    (hq : ∀ d, rest.head? = some d → d ≠ '*' ∧ d ≠ '+' ∧ d ≠ '?') :
    parseGo (fuel + 1) .patom (c :: rest) g =
      some (RE.lit c, rest, g) := by
  have hat := litCharOK_atom c hc
  show (if c = '(' then _
        else if c = '[' then _
        else if c = '\\' then _
        else if c = '.' then _
        else if c = '$' then some (RE.eol, rest, g)
        else if c = ')' || c = '|' || c = '*' || c = '+' || c = '?' ||
            c = '^' then none
        else
          let (a2, rest2) := withQuant (RE.lit c) rest
          some (a2, rest2, g)) = _
  rw [if_neg (by simp [hat.1]), if_neg (by simp [hat.2.1]),
    if_neg (by simp [hat.2.2.1]), if_neg (by simp [hat.2.2.2.1]),
    if_neg (by simp [hat.2.2.2.2.1]),
    if_neg (by
      simp [hat.2.2.2.2.2.1, hat.2.2.2.2.2.2.1, hat.2.2.2.2.2.2.2.1,
        hat.2.2.2.2.2.2.2.2.1, hat.2.2.2.2.2.2.2.2.2.1,
        hat.2.2.2.2.2.2.2.2.2.2]),
    withQuant_no_quant (RE.lit c) rest hq]

/-- The parser reads a literal chain followed by the suffix to the expected
tree. -/
theorem parse_lits (p : List Char) :
    ∀ (f : Nat), p.all litCharOK = true →
    parseGo (p.length + (f + 30)) .pseq (p ++ "((#.+)?)$".data) 1 =
      some (litTail p, [], 3) := by
  induction p with
  | nil =>
    intro f _
    rw [List.length_nil, Nat.zero_add, List.nil_append]
    exact parse_suffix f
  | cons c p' ih =>
    intro f h
    rw [List.all_cons, Bool.and_eq_true] at h
    have hat := litCharOK_atom c h.1
    have hq : ∀ d, (p' ++ "((#.+)?)$".data).head? = some d →
        d ≠ '*' ∧ d ≠ '+' ∧ d ≠ '?' := by
      intro d hd
      cases p' with
      | nil =>
        simp only [List.nil_append] at hd
        have hdc : d = '(' := by simpa using hd.symm
        subst hdc
        exact ⟨by decide, by decide, by decide⟩
      | cons e p'' =>
        simp only [List.cons_append, List.head?_cons, Option.some.injEq] at hd
        have he2 : litCharOK d = true := by
          rw [← hd]
          have h2 := h.2
          rw [List.all_cons, Bool.and_eq_true] at h2
          exact h2.1
        have hea := litCharOK_atom d he2
        exact ⟨hea.2.2.2.2.2.2.2.1, hea.2.2.2.2.2.2.2.2.1,
          hea.2.2.2.2.2.2.2.2.2.1⟩
    have hrec : parseGo ((p'.length + (f + 29)) + 1) .pseq
        (p' ++ "((#.+)?)$".data) 1 = some (litTail p', [], 3) := by
      rw [show (p'.length + (f + 29)) + 1 = p'.length + (f + 30) from by
        omega]
      exact ih f h.2
    rw [show (c :: p').length + (f + 30) =
      (p'.length + (f + 30)) + 1 from by simp only [List.length_cons]; omega]
    rw [List.cons_append]
    rw [parseGo_succ_pseq_cons]
    rw [if_neg (by simp [hat.2.2.2.2.2.1, hat.2.2.2.2.2.2.1])]
    rw [show p'.length + (f + 30) = (p'.length + (f + 29)) + 1 from by omega]
    rw [parseGo_succ_patom_lit (p'.length + (f + 29)) c
      (p' ++ "((#.+)?)$".data) 1 h.1 hq]
    show (do
      let (b, s2, g2) ← parseGo ((p'.length + (f + 29)) + 1) .pseq
        (p' ++ "((#.+)?)$".data) 1
      some (RE.seq (RE.lit c) b, s2, g2)) =
        some (litTail (c :: p'), [], 3)
    rw [hrec]
    rfl

/-- With no colon in the input, the first replace is the identity: pending
runs are flushed unchanged. -/
theorem repSepColonGo_nocolon (s : List Char) :
    ∀ (acc : List Char), (∀ c ∈ s, c ≠ ':') →
    repSepColonGo acc s = acc.reverse ++ s := by
  induction s with
  | nil => intro acc _; simp [repSepColonGo]
  | cons c rest ih =>
    intro acc h
    have hc : c ≠ ':' := h c (List.mem_cons_self c rest)
    have hrest : ∀ d ∈ rest, d ≠ ':' :=
      fun d hd => h d (List.mem_cons_of_mem c hd)
    by_cases hsp : isSlashParen c = true
    · rw [show repSepColonGo acc (c :: rest) =
        repSepColonGo (c :: acc) rest from by simp [repSepColonGo, hsp]]
      rw [ih (c :: acc) hrest]
      simp
    · rw [show repSepColonGo acc (c :: rest) =
        acc.reverse ++ c :: repSepColonGo [] rest from by
          simp [repSepColonGo, hsp, hc]]
      rw [ih [] hrest]
      simp

/-- On a pattern made only of plain literal characters, every replace step of
pathToRegExp is the identity, no key is extracted, and the compiled source is
the caret, the pattern and the hash-fragment suffix. -/
theorem pathStrToRule_lit (p : List Char) (h : p.all litCharOK = true) :
    pathStrToRule p =
      ⟨[], ⟨('^' :: (p ++ "((#.+)?)$".data)).asString, true⟩⟩ := by
  have hall := List.all_eq_true.mp h
  have h5 : isHashRouter p = false := by
    cases p with
    | nil => rfl
    | cons c r =>
      have hc := (litCharOK_facts c (hall c (List.mem_cons_self c r))).2.2.2.2.2.2
      simp [isHashRouter, hc]
  have h1 : repSepColon p = p := by
    rw [repSepColon, repSepColonGo_nocolon p []
      (fun c hc => (litCharOK_facts c (hall c hc)).1)]
    rfl
  have h2 : repParamKeys p = (p, []) := by
    rw [repParamKeys]
    have hstep := repParamKeysGo_lit p 1 []
      (fun c hc => (litCharOK_facts c (hall c hc)).2.1)
    rw [List.append_nil] at hstep
    rw [hstep]
    simp [show repParamKeysGo 1 ([] : List Char) = ([], []) from rfl]
  have h3 : repDoubleClose p = p :=
    repDoubleClose_id p (noDC_of_no_close p
      (fun c hc => (litCharOK_facts c (hall c hc)).2.2.1))
  have h4 : repStar p = p :=
    repStar_id p (fun c hc => (litCharOK_facts c (hall c hc)).2.2.2.2.2.1)
  simp only [pathStrToRule, h1, h2, h3, h4, h5]
  simp

/-- The string stored by List.asString carries exactly the given characters. -/
theorem data_asString (l : List Char) : (l.asString).data = l := rfl

/-- One step of the parser in alternation mode. -/
theorem parseGo_succ_palt (fuel : Nat) (s : List Char) (g : Nat) :
    parseGo (fuel + 1) .palt s g =
      (do
        let (a, s1, g1) ← parseGo fuel .pseq s g
        match s1 with
        | '|' :: rest => do
          let (b, s2, g2) ← parseGo fuel .palt rest g1
          some (RE.alt a b, s2, g2)
        | _ => some (a, s1, g1)) := rfl

/-- The whole-body parse of a literal pattern with the hash-fragment suffix:
the literal chain ending in the suffix tree, with two capturing groups. -/
theorem parse_full_lit (p : List Char) (h : p.all litCharOK = true) :
    parseFull (p ++ "((#.+)?)$".data) = some (litTail p, 2) := by
  show (match parseGo (4 * (p ++ "((#.+)?)$".data).length + 16) .palt
      (p ++ "((#.+)?)$".data) 1 with
    | some (re, [], g) => some (re, g - 1)
    | _ => none) = some (litTail p, 2)
  rw [show 4 * (p ++ "((#.+)?)$".data).length + 16 =
      (p.length + ((3 * p.length + 21) + 30)) + 1 from by
    have h9 : ("((#.+)?)$".data).length = 9 := rfl
    simp only [List.length_append, h9]
    ring]
  rw [parseGo_succ_palt]
  rw [parse_lits p (3 * p.length + 21) h]
  rfl

/-- Parsing the compiled source of a literal pattern: anchored, the literal
chain with the suffix tree, two capturing groups. -/
theorem parseRegex_lit (p : List Char) (h : p.all litCharOK = true) :
    parseRegex ('^' :: (p ++ "((#.+)?)$".data)) =
      some ⟨true, litTail p, 2⟩ := by
  show (parseFull (p ++ "((#.+)?)$".data)).map
      (fun r => ParsedRE.mk true r.1 r.2) =
    some (ParsedRE.mk true (litTail p) 2)
  rw [parse_full_lit p h]
  rfl

/-- One matcher step on the empty expression. -/
theorem mexec_eps_s (ci : Bool) (f : Nat) (s : List Char) (caps : Caps)
    (K : List Char → Caps → Option (List Char × Caps)) :
    mexec ci (f + 1) RE.eps s caps K = K s caps := rfl

/-- One matcher step on a literal. -/
theorem mexec_lit_s (ci : Bool) (f : Nat) (c : Char) (s : List Char)
    (caps : Caps) (K : List Char → Caps → Option (List Char × Caps)) :
    mexec ci (f + 1) (RE.lit c) s caps K =
      (match s with
       | [] => none
       | d :: t => if charMatches ci c d then K t caps else none) := rfl

/-- One matcher step on the dot. -/
theorem mexec_anyc_s (ci : Bool) (f : Nat) (s : List Char) (caps : Caps)
    (K : List Char → Caps → Option (List Char × Caps)) :
    mexec ci (f + 1) RE.anyc s caps K =
      (match s with
       | [] => none
       | d :: t => if notNL d then K t caps else none) := rfl

/-- One matcher step on the end anchor. -/
theorem mexec_eol_s (ci : Bool) (f : Nat) (s : List Char) (caps : Caps)
    (K : List Char → Caps → Option (List Char × Caps)) :
    mexec ci (f + 1) RE.eol s caps K =
      (match s with
       | [] => K s caps
       | _ => none) := rfl

/-- One matcher step on a sequence. -/
theorem mexec_seq_s (ci : Bool) (f : Nat) (a b : RE) (s : List Char)
    (caps : Caps) (K : List Char → Caps → Option (List Char × Caps)) :
    mexec ci (f + 1) (RE.seq a b) s caps K =
      mexec ci f a s caps (fun t c => mexec ci f b t c K) := rfl

/-- One matcher step on a greedy option. -/
theorem mexec_optg_s (ci : Bool) (f : Nat) (a : RE) (s : List Char)
    (caps : Caps) (K : List Char → Caps → Option (List Char × Caps)) :
    mexec ci (f + 1) (RE.opt a true) s caps K =
      (match mexec ci f a s caps K with
       | some r => some r
       | none => K s caps) := rfl

/-- One matcher step on a greedy star. -/
theorem mexec_starg_s (ci : Bool) (f : Nat) (a : RE) (s : List Char)
    (caps : Caps) (K : List Char → Caps → Option (List Char × Caps)) :
    mexec ci (f + 1) (RE.star a true) s caps K =
      (match
        mexec ci f a s caps (fun t c =>
          if t.length < s.length then mexec ci f (RE.star a true) t c K
          else none)
      with
       | some r => some r
       | none => K s caps) := rfl

/-- One matcher step on a plus. -/
theorem mexec_plus_s (ci : Bool) (f : Nat) (a : RE) (gr : Bool)
    (s : List Char) (caps : Caps)
    (K : List Char → Caps → Option (List Char × Caps)) :
    mexec ci (f + 1) (RE.plus a gr) s caps K =
      mexec ci f a s caps (fun t c =>
        if t.length < s.length then mexec ci f (RE.star a gr) t c K
        else K t c) := rfl

/-- One matcher step on a capturing group. -/
theorem mexec_group_s (ci : Bool) (f : Nat) (i : Nat) (a : RE)
    (s : List Char) (caps : Caps)
    (K : List Char → Caps → Option (List Char × Caps)) :
    mexec ci (f + 1) (RE.group i a) s caps K =
      mexec ci f a s caps (fun t c =>
        K t ((i, s.take (s.length - t.length)) :: c)) := rfl

/-- Case-insensitive comparison against the hash sign holds exactly on the
hash sign: its code is not in the image of ASCII lower-casing of any other
character. -/
theorem charMatches_hash (d : Char) :
    charMatches true '#' d = true ↔ d = '#' := by
  constructor
  · intro h
    rw [charMatches, if_pos rfl, beq_iff_eq] at h
    have h35 : lowerNat '#' = 35 := rfl
    rw [h35, lowerNat] at h
    by_cases hcase : (65 ≤ d.toNat && d.toNat ≤ 90) = true
    · rw [if_pos hcase] at h
      simp only [Bool.and_eq_true, decide_eq_true_eq] at hcase
      omega
    · rw [if_neg hcase] at h
      have hd : d.toNat = 35 := h.symm
      have : d = '#' := by
        apply Char.ext
        apply UInt32.ext
        simpa [Char.toNat] using hd
      exact this
  · intro h; subst h; rfl

/-- A greedy star over the dot consumes the whole remaining input when every
character is allowed, and fails otherwise, provided the continuation rejects
every non-empty remainder. -/
theorem mexec_starAny (r : List Char) : ∀ (f : Nat) (caps : Caps)
    (K : List Char → Caps → Option (List Char × Caps)),
    (∀ u cc, u ≠ [] → K u cc = none) →
    mexec true (2 * r.length + (f + 2)) (RE.star RE.anyc true) r caps K =
      (if r.all notNL then K [] caps else none) := by
  induction r with
  | nil =>
    intro f caps K _
    rfl
  | cons d r' ih =>
    intro f caps K hK
    have ihx : mexec true ((2 * r'.length + (f + 2)) + 1)
        (RE.star RE.anyc true) r' caps K =
        (if r'.all notNL then K [] caps else none) := by
      rw [show (2 * r'.length + (f + 2)) + 1 =
        2 * r'.length + ((f + 1) + 2) from by omega]
      exact ih (f + 1) caps K hK
    rw [show 2 * (d :: r').length + (f + 2) =
      (((2 * r'.length + (f + 2)) + 1)) + 1 from by
        simp only [List.length_cons]; ring]
    rw [mexec_starg_s]
    by_cases hd : notNL d = true
    · rw [show mexec true ((2 * r'.length + (f + 2)) + 1) RE.anyc (d :: r')
          caps (fun t c =>
            if t.length < (d :: r').length then
              mexec true ((2 * r'.length + (f + 2)) + 1)
                (RE.star RE.anyc true) t c K
            else none) =
        (if notNL d then
          (if r'.length < (d :: r').length then
            mexec true ((2 * r'.length + (f + 2)) + 1)
              (RE.star RE.anyc true) r' caps K
          else none)
        else none) from rfl]
      rw [if_pos hd, if_pos (by simp), ihx]
      by_cases hall : r'.all notNL = true
      · rw [if_pos hall]
        have hdall : (d :: r').all notNL = true := by
          rw [List.all_cons, hd, hall]; rfl
        rw [hdall]
        cases hx : K [] caps with
        | none =>
          show K (d :: r') caps = none
          exact hK (d :: r') caps (by simp)
        | some v => rfl
      · rw [if_neg hall]
        have hdall : (d :: r').all notNL = false := by
          rw [List.all_cons]
          cases hr : r'.all notNL
          · simp
          · exact absurd hr hall
        rw [hdall]
        show K (d :: r') caps = none
        exact hK (d :: r') caps (by simp)
    · rw [show mexec true ((2 * r'.length + (f + 2)) + 1) RE.anyc (d :: r')
          caps (fun t c =>
            if t.length < (d :: r').length then
              mexec true ((2 * r'.length + (f + 2)) + 1)
                (RE.star RE.anyc true) t c K
            else none) =
        (if notNL d then
          (if r'.length < (d :: r').length then
            mexec true ((2 * r'.length + (f + 2)) + 1)
              (RE.star RE.anyc true) r' caps K
          else none)
        else none) from rfl]
      rw [if_neg hd]
      have hdall : (d :: r').all notNL = false := by
        rw [List.all_cons]
        cases hr : notNL d
        · rfl
        · exact absurd hr hd
      rw [hdall]
      show K (d :: r') caps = none
      exact hK (d :: r') caps (by simp)

/-- A greedy plus over the dot matches exactly the non-empty all-allowed
inputs, consuming everything, provided the continuation rejects every
non-empty remainder. -/
theorem mexec_plusAny (r : List Char) (f : Nat) (caps : Caps)
    (K : List Char → Caps → Option (List Char × Caps))
    (hK : ∀ u cc, u ≠ [] → K u cc = none) :
    mexec true (2 * r.length + (f + 4)) (RE.plus RE.anyc true) r caps K =
      (if !r.isEmpty && r.all notNL then K [] caps else none) := by
  cases r with
  | nil => rfl
  | cons d r' =>
    rw [show 2 * (d :: r').length + (f + 4) =
      (2 * r'.length + (f + 5)) + 1 from by simp only [List.length_cons]; ring]
    rw [mexec_plus_s]
    have hstep : mexec true (2 * r'.length + (f + 5)) RE.anyc (d :: r') caps
        (fun t c =>
          if t.length < (d :: r').length then
            mexec true (2 * r'.length + (f + 5)) (RE.star RE.anyc true) t c K
          else K t c) =
      (if notNL d then
        (if r'.length < (d :: r').length then
          mexec true (2 * r'.length + (f + 5)) (RE.star RE.anyc true)
            r' caps K
        else K r' caps)
      else none) := rfl
    rw [hstep]
    by_cases hd : notNL d = true
    · rw [if_pos hd, if_pos (by simp)]
      rw [show 2 * r'.length + (f + 5) =
        2 * r'.length + ((f + 3) + 2) from by omega]
      rw [mexec_starAny r' (f + 3) caps K hK]
      by_cases hall : r'.all notNL = true
      · rw [if_pos hall]
        have hc : (!(d :: r').isEmpty && (d :: r').all notNL) = true := by
          simp [List.all_cons, hd, hall]
        rw [hc]
        rfl
      · rw [if_neg hall]
        have hallf : r'.all notNL = false := by
          cases hr : r'.all notNL
          · rfl
          · exact absurd hr hall
        have hc : (!(d :: r').isEmpty && (d :: r').all notNL) = false := by
          simp [List.all_cons, hallf]
        rw [hc]
        rfl
    · rw [if_neg hd]
      have hdf : notNL d = false := by
        cases hr : notNL d
        · rfl
        · exact absurd hr hd
      have hc : (!(d :: r').isEmpty && (d :: r').all notNL) = false := by
        simp [List.all_cons, hdf]
      rw [hc]
      rfl

/-- The hash-fragment capturing group, group two of every compiled pattern:
it matches precisely a hash sign followed by a non-empty run of
non-line-terminator characters, consuming the whole input and recording it
as the capture, provided the continuation rejects every non-empty
remainder. -/
theorem mexec_hashGroup (s : List Char) (f : Nat) (caps : Caps)
    (K : List Char → Caps → Option (List Char × Caps))
    (hK : ∀ u cc, u ≠ [] → K u cc = none) :
    mexec true (2 * s.length + (f + 8))
      (RE.group 2 (RE.seq (RE.lit '#')
        (RE.seq (RE.plus RE.anyc true) RE.eps))) s caps K =
      (if hashFragOK s then K [] ((2, s) :: caps) else none) := by
  cases s with
  | nil => rfl
  | cons d s' =>
    have hstep : mexec true (2 * (d :: s').length + (f + 8))
        (RE.group 2 (RE.seq (RE.lit '#')
          (RE.seq (RE.plus RE.anyc true) RE.eps))) (d :: s') caps K =
        (if charMatches true '#' d then
          mexec true (2 * (d :: s').length + (f + 6))
            (RE.seq (RE.plus RE.anyc true) RE.eps) s' caps
            (fun t c =>
              K t ((2, (d :: s').take ((d :: s').length - t.length)) :: c))
        else none) := rfl
    rw [hstep]
    by_cases hd : d = '#'
    · subst hd
      rw [if_pos ((charMatches_hash '#').mpr rfl)]
      have hstep2 : mexec true (2 * (('#' : Char) :: s').length + (f + 6))
          (RE.seq (RE.plus RE.anyc true) RE.eps) s' caps
          (fun t c =>
            K t ((2, (('#' : Char) :: s').take
              ((('#' : Char) :: s').length - t.length)) :: c)) =
          mexec true (2 * (('#' : Char) :: s').length + (f + 5))
            (RE.plus RE.anyc true) s' caps
            (fun t c =>
              mexec true (2 * (('#' : Char) :: s').length + (f + 5))
                RE.eps t c
                (fun t2 c2 =>
                  K t2 ((2, (('#' : Char) :: s').take
                    ((('#' : Char) :: s').length - t2.length)) :: c2))) := rfl
      rw [hstep2]
      rw [show 2 * (('#' : Char) :: s').length + (f + 5) =
        2 * s'.length + ((f + 3) + 4) from by
          simp only [List.length_cons]; ring]
      have hKD : ∀ u cc, u ≠ [] →
          (fun t c =>
            mexec true (2 * s'.length + ((f + 3) + 4)) RE.eps t c
              (fun t2 c2 =>
                K t2 ((2, (('#' : Char) :: s').take
                  ((('#' : Char) :: s').length - t2.length)) :: c2)))
            u cc = none := by
        intro u cc hu
        show K u ((2, (('#' : Char) :: s').take
          ((('#' : Char) :: s').length - u.length)) :: cc) = none
        exact hK u _ hu
      rw [mexec_plusAny s' (f + 3) caps
        (fun t c =>
          mexec true (2 * s'.length + ((f + 3) + 4)) RE.eps t c
            (fun t2 c2 =>
              K t2 ((2, (('#' : Char) :: s').take
                ((('#' : Char) :: s').length - t2.length)) :: c2))) hKD]
      have hcond : hashFragOK ('#' :: s') = (!s'.isEmpty && s'.all notNL) := by
        simp [hashFragOK]
      rw [hcond]
      by_cases hc : (!s'.isEmpty && s'.all notNL) = true
      · rw [if_pos hc, if_pos hc]
        show K [] ((2, (('#' : Char) :: s').take
          (('#' : Char) :: s').length) :: caps) =
          K [] ((2, ('#' : Char) :: s') :: caps)
        rw [List.take_length]
      · rw [if_neg hc, if_neg hc]
    · have hcm : charMatches true '#' d = false := by
        cases hm : charMatches true '#' d
        · rfl
        · exact absurd ((charMatches_hash d).mp hm) hd
      rw [hcm]
      have hfrag : hashFragOK (d :: s') = false := by
        simp [hashFragOK, hd]
      rw [hfrag]
      rfl

/-- The full hash-fragment suffix tree against a remainder s: it succeeds
exactly when s is a well-formed hash fragment, captured by both trailing
groups, or when s is empty, in which case the outer group captures the empty
string and the inner one does not participate. -/
theorem mexec_hashSuffix (s : List Char) (f : Nat) (caps : Caps) :
    mexec true (2 * s.length + (f + 16)) hashSuffixRE s caps
      (fun t c => some (t, c)) =
      (if hashFragOK s then some ([], (1, s) :: (2, s) :: caps)
       else if s.isEmpty then some ([], (1, ([] : List Char)) :: caps)
       else none) := by
  have hstep : mexec true (2 * s.length + (f + 16)) hashSuffixRE s caps
      (fun t c => some (t, c)) =
      (match
        mexec true (2 * s.length + (f + 12))
          (RE.group 2 (RE.seq (RE.lit '#')
            (RE.seq (RE.plus RE.anyc true) RE.eps))) s caps
          (fun t c =>
            mexec true (2 * s.length + (f + 13)) RE.eps t c
              (fun t2 c2 =>
                mexec true (2 * s.length + (f + 15)) (RE.seq RE.eol RE.eps)
                  t2 ((1, s.take (s.length - t2.length)) :: c2)
                  (fun t3 c3 => some (t3, c3))))
      with
       | some r => some r
       | none =>
         mexec true (2 * s.length + (f + 13)) RE.eps s caps
           (fun t2 c2 =>
             mexec true (2 * s.length + (f + 15)) (RE.seq RE.eol RE.eps)
               t2 ((1, s.take (s.length - t2.length)) :: c2)
               (fun t3 c3 => some (t3, c3)))) := rfl
  rw [hstep]
  rw [show 2 * s.length + (f + 12) = 2 * s.length + ((f + 4) + 8) from by
    omega]
  have hKC : ∀ u cc, u ≠ [] →
      (fun t c =>
        mexec true (2 * s.length + (f + 13)) RE.eps t c
          (fun t2 c2 =>
            mexec true (2 * s.length + (f + 15)) (RE.seq RE.eol RE.eps)
              t2 ((1, s.take (s.length - t2.length)) :: c2)
              (fun t3 c3 => some (t3, c3)))) u cc = none := by
    intro u cc hu
    cases u with
    | nil => exact absurd rfl hu
    | cons x xs => rfl
  rw [mexec_hashGroup s (f + 4) caps
    (fun t c =>
      mexec true (2 * s.length + (f + 13)) RE.eps t c
        (fun t2 c2 =>
          mexec true (2 * s.length + (f + 15)) (RE.seq RE.eol RE.eps)
            t2 ((1, s.take (s.length - t2.length)) :: c2)
            (fun t3 c3 => some (t3, c3)))) hKC]
  by_cases hfrag : hashFragOK s = true
  · rw [if_pos hfrag, if_pos hfrag]
    show some (([] : List Char), (1, s.take s.length) :: (2, s) :: caps) =
      some (([] : List Char), (1, s) :: (2, s) :: caps)
    rw [List.take_length]
  · rw [if_neg hfrag, if_neg hfrag]
    cases s with
    | nil => rfl
    | cons x xs => rfl

/-- The whole compiled body of a literal pattern against an input: the
literal characters are consumed case-insensitively, then the remainder must
be a hash fragment (captured by both groups) or empty (outer group empty,
inner absent). -/
theorem mexec_litTail (p : List Char) : ∀ (f : Nat) (s : List Char)
    (caps : Caps),
    mexec true (p.length + (2 * s.length + (f + 17))) (litTail p) s caps
      (fun t c => some (t, c)) =
      (match stripCI p s with
       | none => none
       | some t =>
         if hashFragOK t then some (([] : List Char), (1, t) :: (2, t) :: caps)
         else if t.isEmpty then
           some (([] : List Char), (1, ([] : List Char)) :: caps)
         else none) := by
  induction p with
  | nil =>
    intro f s caps
    rw [show List.length ([] : List Char) + (2 * s.length + (f + 17)) =
      2 * s.length + ((f + 1) + 16) from by simp only [List.length_nil]; omega]
    rw [show litTail ([] : List Char) = hashSuffixRE from rfl]
    rw [mexec_hashSuffix s (f + 1) caps]
    rfl
  | cons c p' ih =>
    intro f s caps
    cases s with
    | nil => rfl
    | cons d s' =>
      have ihx := ih (f + 2) s' caps
      rw [show p'.length + (2 * s'.length + ((f + 2) + 17)) =
        (c :: p').length + (2 * (d :: s').length + (f + 16)) from by
          simp only [List.length_cons]; omega] at ihx
      show (if charMatches true c d then
          mexec true ((c :: p').length + (2 * (d :: s').length + (f + 16)))
            (litTail p') s' caps (fun t c => some (t, c))
        else none) = _
      by_cases hcm : charMatches true c d = true
      · rw [if_pos hcm, ihx]
        rw [show stripCI (c :: p') (d :: s') =
          (if charMatches true c d then stripCI p' s' else none) from rfl,
          if_pos hcm]
      · rw [if_neg hcm]
        rw [show stripCI (c :: p') (d :: s') =
          (if charMatches true c d then stripCI p' s' else none) from rfl,
          if_neg hcm]

/-- Size of the compiled body of a literal pattern: two nodes per literal
character on top of the fifteen nodes of the hash-fragment suffix tree. -/
theorem reSize_litTail (p : List Char) :
    reSize (litTail p) = 2 * p.length + 15 := by
  induction p with
  | nil => rfl
  | cons c p' ih =>
    rw [show litTail (c :: p') = RE.seq (RE.lit c) (litTail p') from rfl]
    rw [show reSize (RE.seq (RE.lit c) (litTail p')) =
      reSize (RE.lit c) + reSize (litTail p') + 1 from rfl]
    rw [ih]
    simp only [reSize, List.length_cons]
    ring

/-- Characterisation of case-insensitive literal stripping: it succeeds with
remainder t exactly when the input splits into a prefix that equals the
pattern up to ASCII case folding, followed by t. -/
theorem stripCI_iff (p : List Char) : ∀ (s t : List Char),
    stripCI p s = some t ↔
      ∃ q1, s = q1 ++ t ∧ q1.map lowerNat = p.map lowerNat := by
  induction p with
  | nil =>
    intro s t
    constructor
    · intro h
      have hs : s = t := by simpa [stripCI] using h
      exact ⟨[], by simp [hs], by simp⟩
    · rintro ⟨q1, hq, hmap⟩
      have hq1 : q1 = [] := by simpa using hmap
      subst hq1
      simp only [List.nil_append] at hq
      simp [stripCI, hq]
  | cons c p' ih =>
    intro s t
    cases s with
    | nil =>
      constructor
      · intro h
        exact absurd h (by simp [stripCI])
      · rintro ⟨q1, hq, hmap⟩
        cases q1 with
        | nil => simp at hmap
        | cons e q1' => simp at hq
    | cons d s' =>
      rw [show stripCI (c :: p') (d :: s') =
        (if charMatches true c d then stripCI p' s' else none) from rfl]
      by_cases hcm : charMatches true c d = true
      · rw [if_pos hcm, ih s' t]
        have hlow : lowerNat c = lowerNat d := by
          simpa [charMatches] using hcm
        constructor
        · rintro ⟨q1, hq, hmap⟩
          refine ⟨d :: q1, by simp [hq], ?_⟩
          simp only [List.map_cons]
          rw [hmap, hlow]
        · rintro ⟨q1, hq, hmap⟩
          cases q1 with
          | nil => simp at hmap
          | cons e q1' =>
            simp only [List.cons_append, List.cons.injEq] at hq
            simp only [List.map_cons, List.cons.injEq] at hmap
            exact ⟨q1', hq.2, hmap.2⟩
      · rw [if_neg hcm]
        constructor
        · intro h
          exact absurd h (by simp)
        · rintro ⟨q1, hq, hmap⟩
          cases q1 with
          | nil => simp at hmap
          | cons e q1' =>
            simp only [List.cons_append, List.cons.injEq] at hq
            simp only [List.map_cons, List.cons.injEq] at hmap
            exfalso
            apply hcm
            obtain ⟨hde, _⟩ := hq
            subst hde
            simp [charMatches, hmap.1]
/-- Shape characterisation of a matchable hash fragment. -/
theorem hashFragOK_iff (l : List Char) :
    hashFragOK l = true ↔
      ∃ r, l = '#' :: r ∧ r ≠ [] ∧ r.all notNL = true := by
  cases l with
  | nil => simp [hashFragOK]
  | cons d r =>
    rw [show hashFragOK (d :: r) =
      ((d = '#' : Bool) && !r.isEmpty && r.all notNL) from rfl]
    constructor
    · intro h
      simp only [Bool.and_eq_true, decide_eq_true_eq, Bool.not_eq_true'] at h
      refine ⟨r, by rw [h.1.1], ?_, h.2⟩
      intro he
      rw [he] at h
      simp at h
    · rintro ⟨r', heq, hne, hall⟩
      injection heq with h1 h2
      subst h1
      subst h2
      cases r with
      | nil => exact absurd rfl hne
      | cons x xs => simp [hall]

/-- Full characterisation of an exec-truthiness test against the rule
compiled from a pattern of plain literal characters: the pattern characters
are consumed case-insensitively from the start of the path, and the
remainder must be a well-formed hash fragment or empty. -/
theorem jsTest_lit (p q : String) (h : p.data.all litCharOK = true) :
    jsTest (pathToRegExp (PathPattern.str p)).regexp q =
      (match stripCI p.data q.data with
       | none => false
       | some t => hashFragOK t || t.isEmpty) := by
  have hrule : pathToRegExp (PathPattern.str p) =
      ⟨[], ⟨('^' :: (p.data ++ "((#.+)?)$".data)).asString, true⟩⟩ :=
    pathStrToRule_lit p.data h
  rw [hrule]
  have hparse : parseRegex
      ((('^' :: (p.data ++ "((#.+)?)$".data)).asString).data) =
      some ⟨true, litTail p.data, 2⟩ := by
    rw [data_asString]
    exact parseRegex_lit p.data h
  show (jsExecArr ⟨('^' :: (p.data ++ "((#.+)?)$".data)).asString, true⟩
    q).isSome = _
  rw [show jsExecArr
      ⟨('^' :: (p.data ++ "((#.+)?)$".data)).asString, true⟩ q =
    (match parseRegex
        ((('^' :: (p.data ++ "((#.+)?)$".data)).asString).data) with
     | none => none
     | some pr =>
       let fuel := matchFuel pr.body q.data
       let att :=
         if pr.anchored then tryAt true fuel pr.body q.data
         else searchFrom true fuel pr.body q.data
       match att with
       | none => none
       | some (full, caps) =>
         some (some full.asString ::
           (List.range pr.groups).map
             (fun i => (lookupCap caps (i + 1)).map List.asString)))
    from rfl]
  rw [hparse]
  show (match tryAt true (matchFuel (litTail p.data) q.data)
      (litTail p.data) q.data with
    | none => (none : Option (List (Option String)))
    | some (full, caps) =>
      some (some full.asString ::
        (List.range 2).map
          (fun i => (lookupCap caps (i + 1)).map List.asString))).isSome = _
  rw [show tryAt true (matchFuel (litTail p.data) q.data) (litTail p.data)
      q.data =
    (mexec true (matchFuel (litTail p.data) q.data) (litTail p.data)
        q.data [] (fun t c => some (t, c))).map
      (fun (r : List Char × Caps) =>
        (q.data.take (q.data.length - r.1.length), r.2)) from rfl]
  rw [show matchFuel (litTail p.data) q.data =
    p.data.length + (2 * q.data.length +
      ((2 * p.data.length * q.data.length + 7 * p.data.length +
        17 * q.data.length + 75) + 17)) from by
    rw [matchFuel, reSize_litTail]
    ring]
  rw [mexec_litTail p.data (2 * p.data.length * q.data.length +
    7 * p.data.length + 17 * q.data.length + 75) q.data []]
  cases hsp : stripCI p.data q.data with
  | none => rfl
  | some t =>
    show (match (if hashFragOK t then
          some (([] : List Char), (1, t) :: (2, t) :: ([] : Caps))
        else if t.isEmpty then
          some (([] : List Char), (1, ([] : List Char)) :: ([] : Caps))
        else none).map
          (fun (r : List Char × Caps) =>
            (q.data.take (q.data.length - r.1.length), r.2)) with
      | none => (none : Option (List (Option String)))
      | some (full, caps) =>
        some (some full.asString ::
          (List.range 2).map
            (fun i => (lookupCap caps (i + 1)).map List.asString))).isSome =
      (hashFragOK t || t.isEmpty)
    by_cases hf : hashFragOK t = true
    · rw [if_pos hf, hf]
      rfl
    · rw [if_neg hf]
      have hff : hashFragOK t = false := by
        cases hx : hashFragOK t
        · rfl
        · exact absurd hx hf
      rw [hff]
      by_cases he : t.isEmpty = true
      · rw [if_pos he, he]
        rfl
      · rw [if_neg he]
        have hef : t.isEmpty = false := by
          cases hx : t.isEmpty
          · rfl
          · exact absurd hx he
        rw [hef]
        rfl

/-! ## Claim theorems -/

/-- C1, counterexample: as stated for the legacy dispatcher cited by the
claim (watch.run of src/watchman.js, lines 416-451), the claim is false.
That loop has no break statement, so with two rules both matching the path
/x the handlers of both rules are invoked; the later-registered matching
rule is considered and run, not skipped. -/
theorem c1_counterexample :
    watchRunV2
        ⟨some [createRuleV2 (.str "/x") (.func (tagHandler 1)),
               createRuleV2 (.str "/x") (.func (tagHandler 2))],
         none, false, ""⟩ "/x" =
      ⟨[Event.statechange "/x", Event.hrun 1 [] "/x", Event.hrun 2 [] "/x",
        Event.watching], none⟩ := by
  rfl

/-- C1, amended: in watch.run of src/src/watchman.js the loop does break at
the first matching rule, so rules registered after the first match are never
considered (removing them leaves the run result unchanged), and when no
earlier rule matches, the dispatch consists exactly of the first matching
rule's middleware chain and handler. The legacy watch.run of src/watchman.js
(lines 416-451) lacks the break and invokes every matching rule's chain in
registration order. -/
theorem c1_amended_first_match_only (rs1 rs2 : List WRule) (r : WRule)
    (mws : Option (List MW)) (running : Bool) (base : String) (path : String)
    (h1 : jsTest r.regexp path = true)
    (h2 : rs1.all (fun q => ! jsTest q.regexp path) = true) :
    watchRun ⟨some (rs1 ++ r :: rs2), mws, running, base⟩ path =
      watchRun ⟨some (rs1 ++ [r]), mws, running, base⟩ path ∧
    runFirstHit (rs1 ++ r :: rs2) mws path = runHit mws r path := by
  constructor
  · simp only [watchRun]
    rw [runFirstHit_append_of_match rs1 rs2 r mws path h1]
  · rw [runFirstHit_append_of_match rs1 rs2 r mws path h1,
      runFirstHit_skip rs1 [r] mws path h2]
    simp [runFirstHit, h1]

/-- C1, witness for the amended theorem at a concrete input: one
non-matching rule, then two rules matching /x. -/
theorem c1_witness :
    watchRun
        ⟨some [ruleOf "/z" 5, ruleOf "/x" 1, ruleOf "/x" 2], none, false, ""⟩
        "/x" =
      watchRun ⟨some [ruleOf "/z" 5, ruleOf "/x" 1], none, false, ""⟩ "/x" ∧
    runFirstHit [ruleOf "/z" 5, ruleOf "/x" 1, ruleOf "/x" 2] none "/x" =
      runHit none (ruleOf "/x" 1) "/x" :=
  c1_amended_first_match_only [ruleOf "/z" 5] [ruleOf "/x" 2] (ruleOf "/x" 1)
    none false "" "/x" (by decide) (by decide)

/-- C2, counterexample: for the pattern consisting of a single asterisk the
compiled expression is caret (.*) ((#.+)?) dollar, which has three capturing
groups while the parameter-name list is empty; so the invariant one group
per parameter apart from the two trailing hash groups fails on patterns with
an asterisk wildcard. -/
theorem c2_counterexample :
    ¬ (countCapGroups (pathToRegExp (.str "*")).regexp.source =
        (pathToRegExp (.str "*")).keys.length + 2) := by
  decide

/-- C2, amended: the invariant holds on the restricted grammar of plain
literal segments and defaulted parameter tokens (no asterisks and no
explicit constraint groups, which the counterexample shows break it). For
every well-formed such pattern, the compiled rule has exactly the parameter
names in order of appearance, the compiled source is the anchored body
followed by the hash-fragment suffix where each parameter contributes
exactly its one-group chunk at its position, the body holds exactly one
capturing group per parameter, and the whole expression holds the parameter
count plus the two trailing hash groups. -/
theorem c2_amended_groups (segs : List Seg) (h : segsWF segs = true) :
    pathToRegExp (.str (renderChars segs).asString) =
      ⟨paramNames segs,
       ⟨('^' :: (bodyChars segs ++ "((#.+)?)$".data)).asString, true⟩⟩ ∧
    countCapGo false (bodyChars segs) = (paramNames segs).length ∧
    countCapGroups ('^' :: (bodyChars segs ++ "((#.+)?)$".data)).asString =
      (paramNames segs).length + 2 := by
  refine ⟨?_, ?_, ?_⟩
  · show pathStrToRule (renderChars segs).asString.data = _
    rw [show (renderChars segs).asString.data = renderChars segs from rfl]
    simp only [pathStrToRule]
    rw [repSepColon_render segs h, repParamKeys_render segs h]
    simp only
    rw [repDoubleClose_id _ (bodyChars_noDC segs h),
      repStar_id _ (bodyChars_no_star segs h),
      renderChars_not_hash segs h]
    simp
  · have hb := countCapGo_body segs [] h
    rw [List.append_nil] at hb
    simpa using hb
  · show countCapGo false
      ('^' :: (bodyChars segs ++ "((#.+)?)$".data)) = _
    rw [countCapGo_step '^' _ (by decide) (by decide) (by decide),
      countCapGo_body segs _ h,
      show countCapGo false ("((#.+)?)$".data) = 2 from rfl]

/-- C2, witness for the amended theorem at the pattern /user/:id. -/
theorem c2_witness :
    pathToRegExp
        (.str (renderChars [Seg.lit "/user", Seg.param "id"]).asString) =
      ⟨paramNames [Seg.lit "/user", Seg.param "id"],
       ⟨('^' :: (bodyChars [Seg.lit "/user", Seg.param "id"] ++
           "((#.+)?)$".data)).asString, true⟩⟩ ∧
    countCapGo false (bodyChars [Seg.lit "/user", Seg.param "id"]) =
      (paramNames [Seg.lit "/user", Seg.param "id"]).length ∧
    countCapGroups ('^' :: (bodyChars [Seg.lit "/user", Seg.param "id"] ++
        "((#.+)?)$".data)).asString =
      (paramNames [Seg.lit "/user", Seg.param "id"]).length + 2 :=
  c2_amended_groups [Seg.lit "/user", Seg.param "id"] (by decide)

/-- C3: for the registered pattern /user/:id, dispatching /user/42 invokes
the handler with params binding id to the string 42, and dispatching /user
still matches (the parameter segment is optional by construction) and
invokes the handler with params binding id to undefined. -/
theorem c3_params_extraction :
    watchRun (registerOrSkip initState (.str "/user/:id")
        (.func (tagHandler 7))) "/user/42" =
      ⟨[Event.statechange "/user/42",
        Event.hrun 7 [("id", some "42")] "/user/42", Event.watching],
       none⟩ ∧
    watchRun (registerOrSkip initState (.str "/user/:id")
        (.func (tagHandler 7))) "/user" =
      ⟨[Event.statechange "/user", Event.hrun 7 [("id", none)] "/user",
        Event.watching], none⟩ := by
  exact ⟨by decide, by decide⟩

/-- C4: with middlewares m1 and m2 registered through use in that order and
a matching rule, m1 runs strictly before m2 and the handler runs only after
m2 calls its continuation; a middleware that does not call its continuation
silently halts the chain, so no later middleware and no handler runs. The
three traces cover: both call through; m1 declines; m2 declines. -/
theorem c4_middleware_order :
    watchRun (watchUse (registerOrSkip initState (.str "/a")
        (.func (tagHandler 9))) [mkMW 1 true, mkMW 2 true]) "/a" =
      ⟨[Event.statechange "/a", Event.mw 1, Event.mw 2,
        Event.hrun 9 [] "/a", Event.watching], none⟩ ∧
    watchRun (watchUse (registerOrSkip initState (.str "/a")
        (.func (tagHandler 9))) [mkMW 1 false, mkMW 2 true]) "/a" =
      ⟨[Event.statechange "/a", Event.mw 1, Event.watching], none⟩ ∧
    watchRun (watchUse (registerOrSkip initState (.str "/a")
        (.func (tagHandler 9))) [mkMW 1 true, mkMW 2 false]) "/a" =
      ⟨[Event.statechange "/a", Event.mw 1, Event.mw 2, Event.watching],
       none⟩ := by
  exact ⟨by decide, by decide, by decide⟩

/-- C5, counterexample: the compilation is case-insensitive (flag i), so the
literal pattern /a also matches the different path /A, which is neither /a
nor /a followed by a hash fragment (it does not even have /a as a prefix);
hence the compiled expression does not match only the path equal to the
pattern. -/
theorem c5_counterexample :
    jsTest (pathToRegExp (.str "/a")).regexp "/A" = true ∧
    "/a".data.isPrefixOf "/A".data = false := by
  exact ⟨by decide, by decide⟩

/-- C5, amended: for a pattern made only of plain literal characters
(letters, digits, slash, hyphen, underscore — in particular no colon and no
asterisk), the compiled regular expression matches a path exactly when the
path is the pattern up to ASCII case folding (the i flag makes matching
case-insensitive), either alone or followed by a hash fragment: a hash sign
plus a non-empty run of non-line-terminator characters. -/
theorem c5_amended (p q : String) (h : p.data.all litCharOK = true) :
    jsTest (pathToRegExp (PathPattern.str p)).regexp q = true ↔
      ∃ q1 q2 : List Char, q.data = q1 ++ q2 ∧
        q1.map lowerNat = p.data.map lowerNat ∧
        (q2 = [] ∨ ∃ r, q2 = '#' :: r ∧ r ≠ [] ∧ r.all notNL = true) := by
  rw [jsTest_lit p q h]
  cases hsp : stripCI p.data q.data with
  | none =>
    show (false = true) ↔ _
    constructor
    · intro hx
      exact absurd hx (by decide)
    · rintro ⟨q1, q2, hq, hmap, _⟩
      have hsome := (stripCI_iff p.data q.data q2).mpr ⟨q1, hq, hmap⟩
      rw [hsp] at hsome
      exact absurd hsome (by simp)
  | some t =>
    show (hashFragOK t || t.isEmpty) = true ↔ _
    constructor
    · intro hx
      obtain ⟨q1, hq, hmap⟩ := (stripCI_iff p.data q.data t).mp hsp
      cases Bool.or_eq_true_iff.mp hx with
      | inl hf =>
        obtain ⟨r, hr, hne, hall⟩ := (hashFragOK_iff t).mp hf
        exact ⟨q1, t, hq, hmap, Or.inr ⟨r, hr, hne, hall⟩⟩
      | inr he =>
        have ht : t = [] := by
          cases t with
          | nil => rfl
          | cons x xs => exact absurd he (by simp)
        exact ⟨q1, t, hq, hmap, Or.inl ht⟩
    · rintro ⟨q1, q2, hq, hmap, hcase⟩
      have hsome := (stripCI_iff p.data q.data q2).mpr ⟨q1, hq, hmap⟩
      rw [hsp] at hsome
      have htq : t = q2 := Option.some.inj hsome
      subst htq
      cases hcase with
      | inl h2 =>
        subst h2
        rfl
      | inr h2 =>
        obtain ⟨r, hr, hne, hall⟩ := h2
        rw [(hashFragOK_iff t).mpr ⟨r, hr, hne, hall⟩]
        rfl

/-- C5, witness: the literal pattern /a is all-literal, and the compiled
rule accepts the path /A#x — the pattern up to case, followed by the hash
fragment #x. -/
theorem c5_witness :
    ("/a".data.all litCharOK = true) ∧
      jsTest (pathToRegExp (PathPattern.str "/a")).regexp "/A#x" = true :=
  ⟨by decide, (c5_amended "/a" "/A#x" (by decide)).mpr
    ⟨"/A".data, "#x".data, by decide, by decide,
      Or.inr ⟨"x".data, by decide, by decide, by decide⟩⟩⟩

/-- C6, counterexample: when no rule has ever been registered,
watch._watching is undefined and the dispatch loop header throws a TypeError
reading its length, so the call does not complete without error. -/
theorem c6_counterexample :
    (watchRun initState "/x").error =
      some "TypeError: cannot read length of undefined" := by
  rfl

/-- C6, amended: provided at least one registration has happened (so that
the rules list exists), a dispatch whose path matches no rule completes
without error and invokes no middleware and no handler: the trace holds only
the statechange emission and, on a first run, the watching emission. When no
rule was ever registered the call instead throws, see the counterexample. -/
theorem c6_amended_silent_miss (rules : List WRule) (mws : Option (List MW))
    (running : Bool) (base : String) (path : String)
    (h : rules.all (fun q => ! jsTest q.regexp path) = true) :
    watchRun ⟨some rules, mws, running, base⟩ path =
      ⟨Event.statechange path :: watchSetup running, none⟩ := by
  simp only [watchRun]
  rw [runFirstHit_all_miss rules mws path h]
  rfl

/-- C6, witness for the amended theorem: one registered rule for /a, path /b
dispatched. -/
theorem c6_witness :
    watchRun ⟨some [ruleOf "/a" 1], none, false, ""⟩ "/b" =
      ⟨[Event.statechange "/b", Event.watching], none⟩ :=
  c6_amended_silent_miss [ruleOf "/a" 1] none false "" "/b" (by decide)

/-- C7, counterexample: registering a pre-built regular expression does
raise an error: createRule evaluates path.indexOf for the base-prefix guard,
and a RegExp value has no indexOf method, so registration throws before any
rule is stored. -/
theorem c7_counterexample :
    watchRegister initState (.regex ⟨"^/raw$", false⟩) (.func (tagHandler 3)) =
      .error "TypeError: path.indexOf is not a function" := by
  rfl

/-- C7, amended: pathToRegExp itself returns a pre-built regular expression
unchanged with an empty parameter-name list, but registration never gets
there: for every base and handler, createRule on a RegExp pattern throws a
TypeError from the path.indexOf call in the base-prefix guard. -/
theorem c7_amended_regexp_unchanged (r : JSRegExp) (base : String)
    (h : HandlerArg) :
    pathToRegExp (.regex r) = ⟨[], r⟩ ∧
    createRule base (.regex r) h =
      .error "TypeError: path.indexOf is not a function" :=
  ⟨rfl, rfl⟩

/-- C8: evaluation at the failing input. Registering the primitive string
/target as the handler of pattern /a stores the raw string, not a redirect
wrapper, because handler instanceof String is false for primitive strings;
dispatching /a then throws, since the stored value is not callable. For a
String object the branch does wrap, but the wrapper body calls watch with
the object literal holding a url field, which the unary-object branch of
watch treats as a mapping to register, not as a dispatch. -/
theorem c8_code_bug_eval :
    createRule "" (.str "/a") (.strPrim "/target") =
      .ok ⟨[], ⟨"^/a((#.+)?)$", true⟩, .rawString "/target"⟩ ∧
    (watchRun ⟨some [mkWRule (pathToRegExp (.str "/a")) (.strPrim "/target")],
        none, false, ""⟩ "/a").error =
      some "TypeError: hit is not a function" ∧
    hitFn (mkWRule (pathToRegExp (.str "/a")) (.strObj "/target")).handler
        ⟨[], "/a"⟩ =
      ([Event.watchObjCall "/target"], none) := by
  refine ⟨rfl, by decide, rfl⟩

/-- C9, counterexample: for the array pattern with alternatives /a/:id and
/b, the compiled rule's parameter-name list is not empty: the token :id
inside the first alternative is extracted by the rewrite, contradicting the
claim that alternation contents yield no parameter names. -/
theorem c9_counterexample :
    (pathToRegExp (.arr ["/a/:id", "/b"])).keys ≠ [] := by
  decide

/-- C9, amended: an array pattern is joined into a single alternation group
before the string pipeline runs, and parameter tokens inside the
alternatives are extracted exactly as in plain string patterns: the array
with alternatives /a/:id and /b compiles to an alternation whose
parameter-name list is the singleton id. -/
theorem c9_amended_alternation :
    (∀ xs : List String,
      pathToRegExp (.arr xs) =
        pathStrToRule ("(" ++ String.intercalate "|" xs ++ ")").data) ∧
    pathToRegExp (.arr ["/a/:id", "/b"]) =
      ⟨["id"], ⟨"^(/a(?:/?([^/]+)?)|/b)((#.+)?)$", true⟩⟩ :=
  ⟨fun _ => rfl, by decide⟩

/-- C10: removeEventListener with a listener that was never registered for a
type whose listener list is non-empty removes the most recently added
listener of that type: indexOf yields minus one and splice at minus one
deletes the last element. -/
theorem c10_remove_absent (ev : EventsMap) (ty : String) (l : Nat)
    (hs : List Nat) (h1 : lookupListeners ev ty = some hs) (h2 : hs ≠ [])
    (h3 : l ∉ hs) :
    lookupListeners (removeEventListener ev ty l) ty = some hs.dropLast := by
  simp only [removeEventListener, h1]
  rw [jsIndexOf_not_mem hs l h3, jsSpliceDelOne_neg_one]
  exact lookupListeners_update ev ty hs hs.dropLast h1

/-- C10, witness: listeners one and two registered for click, removing the
unregistered listener nine drops listener two. -/
theorem c10_witness :
    lookupListeners (removeEventListener [("click", [1, 2])] "click" 9)
        "click" = some [1] :=
  c10_remove_absent [("click", [1, 2])] "click" 9 [1, 2] rfl (by decide)
    (by decide)

end Watchman
